import Mathlib

/-!
Verification of the condition-evaluation and format-marshaling subsystem of
hugo-frontmatter-toolbox (src/internal/helpers/helpers.go).

Go strings are modelled as `List Char` (written `Str`); Go's
`map[string]interface{}` frontmatter documents are modelled as association
lists `Doc := List (Str × GoVal)` whose value type `GoVal` is the tagged
union from the data model (string, boolean, integer, nil, one level of
sequence).  Go standard-library string functions used by the source
(`strings.Split`, `strings.SplitN`, `strings.Contains`, `strings.HasPrefix`,
`strings.TrimSpace`, `strings.Trim`, `strings.ReplaceAll`, `fmt.Sprintf`
with the `%v`/`%q`/`%t` verbs, `time.Parse` with layout `2006-01-02`,
`sort.Strings`) are given explicit executable models next to the functions
translated from the source.  Machine integers are modelled as `Int`/`Nat`
(no arithmetic in the source can overflow: it only formats and compares).
-/

/-- A Go string, as a list of characters. -/
abbrev Str := List Char

/-- Converts a Lean string literal to the `Str` model. -/
def strL (s : String) : Str := s.data

/-- Model of `strings.HasPrefix s pre`. -/
def startsW : Str → Str → Bool
  | _, [] => true
  | [], _ :: _ => false
  | a :: s, b :: p => a == b && startsW s p

/-- Model of `strings.Index s pat`: index of the first occurrence of `pat`
in `s` (`none` models the return value -1). -/
def findSub : Str → Str → Option Nat
  | s, pat =>
    if startsW s pat then some 0
    else match s with
      | [] => none
      | _ :: t => (findSub t pat).map (· + 1)

/-- Model of `strings.Contains s pat`. -/
def containsSub (s pat : Str) : Bool := (findSub s pat).isSome

/-- Fuel-driven worker for `splitOnSep`; the fuel is always sufficient at
the call site (each step consumes at least one character for the non-empty
separators used by the source). -/
def splitGo : Nat → Str → Str → List Str
  | 0, s, _ => [s]
  | fuel + 1, s, sep =>
    match findSub s sep with
    | none => [s]
    | some i => s.take i :: splitGo fuel (s.drop (i + sep.length)) sep

/-- Model of `strings.Split s sep` for a non-empty separator: split around
every non-overlapping occurrence, left to right. -/
def splitOnSep (s sep : Str) : List Str := splitGo (s.length + 1) s sep

/-- Model of `strings.SplitN s sep 2`: at most two parts, split at the
first occurrence of the separator. -/
def splitNTwo (s sep : Str) : List Str :=
  match findSub s sep with
  | none => [s]
  | some i => [s.take i, s.drop (i + sep.length)]

/-- Fuel-driven worker for `replaceAll`. -/
def replGo : Nat → Str → Str → Str → Str
  | 0, s, _, _ => s
  | fuel + 1, s, old, new =>
    match findSub s old with
    | none => s
    | some i => s.take i ++ new ++ replGo fuel (s.drop (i + old.length)) old new

/-- Model of `strings.ReplaceAll s old new` for non-empty `old`. -/
def replaceAll (s old new : Str) : Str := replGo (s.length + 1) s old new

/-- The ASCII whitespace characters trimmed by `strings.TrimSpace`. -/
def isSpaceCh (c : Char) : Bool :=
  c == ' ' || c == '\t' || c == '\n' || c == '\r' ||
  c == Char.ofNat 11 || c == Char.ofNat 12

/-- Model of `strings.TrimSpace`. -/
def trimSpace (s : Str) : Str :=
  ((s.dropWhile isSpaceCh).reverse.dropWhile isSpaceCh).reverse

/-- Model of `strings.Trim s cutset`: remove all leading and trailing
characters contained in `cutset`. -/
def trimChars (s cut : Str) : Str :=
  ((s.dropWhile (cut.contains ·)).reverse.dropWhile (cut.contains ·)).reverse

/-- Model of `strings.Join parts sep`. -/
def joinSep (sep : Str) : List Str → Str
  | [] => []
  | [x] => x
  | x :: y :: t => x ++ sep ++ joinSep sep (y :: t)

/-- Indexing `parts[i]` into a split result; every use in the source is
guarded by a `strings.Contains` check that guarantees the index is in
range, so the default is never reached there. -/
def getIdx (l : List Str) (i : Nat) : Str := l.getD i []

/-- Decimal digits of a natural number, fuel-driven (the fuel `n + 1` is
always sufficient since the argument at least halves each step). -/
def natToStrGo : Nat → Nat → Str
  | 0, _ => []
  | fuel + 1, n =>
    if n < 10 then [Char.ofNat (48 + n)]
    else natToStrGo fuel (n / 10) ++ [Char.ofNat (48 + n % 10)]

/-- Decimal rendering of a natural number (as Go's `%v`/`%d` print it). -/
def natToStr (n : Nat) : Str := natToStrGo (n + 1) n

/-- Model of Go's `%v` rendering of an integer. -/
def intToStr (n : Int) : Str :=
  if n < 0 then '-' :: natToStr (-n).toNat else natToStr n.toNat

/-- Go's `%t` / `%v` rendering of a boolean. -/
def boolStr (b : Bool) : Str := if b then strL "true" else strL "false"

/-- The Go scalar values of the frontmatter data model: string, boolean,
integer, and the untyped `nil`. -/
inductive GoScal where
  | str (s : Str)
  | boolean (b : Bool)
  | int (n : Int)
  | nil
  deriving DecidableEq

/-- A Go `interface{}` frontmatter value: a scalar, a `[]interface{}` of
scalars (one level of sequence, as guaranteed by the data model), or a
`[]string`. -/
inductive GoVal where
  | scal (x : GoScal)
  | arr (xs : List GoScal)
  | strArr (ss : List Str)
  deriving DecidableEq

/-- Go's `fmt.Sprintf("%v", x)` display of a scalar (`nil` prints
as the bracketed word nil). -/
def dispS : GoScal → Str
  | .str s => s
  | .boolean b => boolStr b
  | .int n => intToStr n
  | .nil => '<' :: strL "nil>"

/-- Go's `fmt.Sprintf("%v", v)` display of a value; slices print as their
space-separated elements between square brackets. -/
def dispV : GoVal → Str
  | .scal x => dispS x
  | .arr xs => '[' :: (joinSep (strL " ") (xs.map dispS) ++ [']'])
  | .strArr ss => '[' :: (joinSep (strL " ") ss ++ [']'])

/-- A frontmatter document: association list from field name to value,
modelling `map[string]interface{}` (keys unique in every map produced by
Go; theorems that need uniqueness assume it explicitly). -/
abbrev Doc := List (Str × GoVal)

/-- Map lookup `front[key]`. -/
def lookupD (front : Doc) (key : Str) : Option GoVal :=
  match front with
  | [] => none
  | (k, v) :: t => if k = key then some v else lookupD t key

/-- The keys of a document, in association-list order. -/
def keysOf (front : Doc) : List Str := front.map Prod.fst

/-- Model of `delete(front, key)`. -/
def eraseKey (front : Doc) (key : Str) : Doc :=
  front.filter (fun kv => kv.1 ≠ key)

/-- Boolean uniqueness of keys (what a Go map guarantees). -/
def nodupKeys (front : Doc) : Bool :=
  match front with
  | [] => true
  | (k, _) :: t => !(keysOf t).contains k && nodupKeys t

/-- Model of `flattenToStrings` (helpers.go:347): `nil` flattens to the
empty list, slices flatten element-wise via `%v`, `[]string` is appended
directly, and any other value flattens to its single `%v` display. -/
def flattenToStrings : GoVal → List Str
  | .scal .nil => []
  | .arr xs => xs.map dispS
  | .strArr ss => ss
  | .scal x => [dispS x]

/-- A calendar date as parsed by `time.Parse("2006-01-02", s)`; Go's
`time.Time` carries more structure but only the date components matter for
`Before` on midnight-UTC values. -/
structure YDate where
  y : Nat
  m : Nat
  d : Nat
  deriving DecidableEq

/-- The zero `time.Time` value: January 1 of year 1. -/
def zeroDate : YDate := ⟨1, 1, 1⟩

/-- Whether character `c` is an ASCII digit. -/
def isDigitCh (c : Char) : Bool := 48 ≤ c.toNat && c.toNat ≤ 57

/-- Numeric value of an ASCII digit. -/
def digitVal (c : Char) : Nat := c.toNat - 48

/-- Days in a month, with the Gregorian leap rule, as validated by
`time.Parse`. -/
def daysIn (y m : Nat) : Nat :=
  if m = 2 then
    if y % 4 = 0 && (y % 100 ≠ 0 || y % 400 = 0) then 29 else 28
  else if m = 4 || m = 6 || m = 9 || m = 11 then 30
  else 31

/-- Model of `time.Parse("2006-01-02", s)`: exactly four digits, a dash,
two digits, a dash, two digits, with month and day range-checked (the year
may be 0000: Go's fixed-width year field accepts it). `none` models a
non-nil parse error. -/
def parseDate (s : Str) : Option YDate :=
  match s with
  | [y1, y2, y3, y4, h1, m1, m2, h2, d1, d2] =>
    if isDigitCh y1 && isDigitCh y2 && isDigitCh y3 && isDigitCh y4 &&
       h1 == '-' && isDigitCh m1 && isDigitCh m2 &&
       h2 == '-' && isDigitCh d1 && isDigitCh d2 then
      let y := ((digitVal y1 * 10 + digitVal y2) * 10 + digitVal y3) * 10 + digitVal y4
      let m := digitVal m1 * 10 + digitVal m2
      let d := digitVal d1 * 10 + digitVal d2
      if 1 ≤ m && m ≤ 12 && 1 ≤ d && d ≤ daysIn y m then some ⟨y, m, d⟩
      else none
    else none
  | _ => none

/-- Model of `a.Before(b)` on two parsed midnight-UTC dates: strict
chronological (lexicographic) comparison. -/
def dateBefore (a b : YDate) : Bool :=
  a.y < b.y || (a.y = b.y && (a.m < b.m || (a.m = b.m && a.d < b.d)))

/-- Model of `CheckCondition` (helpers.go:300): single-clause evaluation
with the source's fixed structural dispatch — date comparison first, then
membership, then equality, else false.  `cutoffTime, _ := time.Parse(...)`
discards the parse error, leaving the zero time as cutoff. -/
def CheckCondition (front : Doc) (cond : Str) : Bool :=
  if containsSub cond (strL "<") && startsW cond (strL "date") then
    let cutoff := trimSpace (getIdx (splitOnSep cond (strL "<")) 1)
    let cutoffTime := (parseDate cutoff).getD zeroDate
    match lookupD front (strL "date") with
    | some val =>
      match parseDate (dispV val) with
      | some postTime => dateBefore postTime cutoffTime
      | none => false
    | none => false
  else if containsSub cond (strL "contains") then
    let parts := splitOnSep cond (strL "contains")
    let key := trimSpace (getIdx parts 0)
    let rawNeedle := trimChars (trimSpace (getIdx parts 1)) [Char.ofNat 34, Char.ofNat 39]
    match lookupD front key with
    | some val => (flattenToStrings val).any (fun item => item == rawNeedle)
    | none => false
  else if containsSub cond (strL "=") then
    let parts := splitOnSep cond (strL "=")
    let key := trimSpace (getIdx parts 0)
    let value := trimSpace (getIdx parts 1)
    match lookupD front key with
    | some val => dispV val == value
    | none => false
  else false

/-- Model of `EvaluateConditions` (helpers.go:270): normalize the word
operators, split into OR clauses, every OR clause into AND clauses, and
require some OR clause whose AND clauses all hold. -/
def EvaluateConditions (front : Doc) (cond : Str) : Bool :=
  let cond1 := replaceAll cond (strL " AND ") (strL " && ")
  let cond2 := replaceAll cond1 (strL " OR ") (strL " || ")
  let clauses := splitOnSep cond2 (strL "||")
  clauses.any (fun clause =>
    (splitOnSep clause (strL "&&")).all (fun andClause =>
      CheckCondition front (trimSpace andClause)))

/-- The structural guard of the date rule: the clause contains a
less-than sign and starts with the word date. -/
def dateShape (cond : Str) : Bool :=
  containsSub cond (strL "<") && startsW cond (strL "date")

/-- The structural guard of the membership rule. -/
def containsShape (cond : Str) : Bool := containsSub cond (strL "contains")

/-- The structural guard of the equality rule. -/
def eqShape (cond : Str) : Bool := containsSub cond (strL "=")

/-- The date rule body, stated on its own for the dispatch theorem. -/
def dateRule (front : Doc) (cond : Str) : Bool :=
  let cutoff := trimSpace (getIdx (splitOnSep cond (strL "<")) 1)
  let cutoffTime := (parseDate cutoff).getD zeroDate
  match lookupD front (strL "date") with
  | some val =>
    match parseDate (dispV val) with
    | some postTime => dateBefore postTime cutoffTime
    | none => false
  | none => false

/-- The membership rule body, stated on its own for the dispatch
theorem: note the `strings.Split` on every occurrence, and the
`strings.Trim` stripping all leading and trailing quote characters. -/
def containsRule (front : Doc) (cond : Str) : Bool :=
  let parts := splitOnSep cond (strL "contains")
  let key := trimSpace (getIdx parts 0)
  let rawNeedle := trimChars (trimSpace (getIdx parts 1)) [Char.ofNat 34, Char.ofNat 39]
  match lookupD front key with
  | some val => (flattenToStrings val).any (fun item => item == rawNeedle)
  | none => false

/-- The equality rule body, stated on its own for the dispatch theorem. -/
def eqRule (front : Doc) (cond : Str) : Bool :=
  let parts := splitOnSep cond (strL "=")
  let key := trimSpace (getIdx parts 0)
  let value := trimSpace (getIdx parts 1)
  match lookupD front key with
  | some val => dispV val == value
  | none => false

/-- Split at the first occurrence only, as the specification's words
describe the membership rule (left of the first occurrence, and the whole
remainder to its right). -/
def splitFirstAt (s pat : Str) : Str × Str :=
  match findSub s pat with
  | none => (s, [])
  | some i => (s.take i, s.drop (i + pat.length))

/-- Strips exactly one layer of surrounding (matched) single or double
quotes, as the specification's words describe the needle. -/
def stripOneLayer (s : Str) : Str :=
  match s with
  | c :: _ :: _ =>
    if (c == Char.ofNat 34 || c == Char.ofNat 39) && s.getLast? == some c then
      (s.drop 1).dropLast
    else s
  | _ => s

/-- The membership check exactly as the specification's sentence states
it (claim C5): split on the FIRST occurrence of the word contains, key
left, needle right with one layer of quotes stripped, true iff the needle
equals a flattened element. -/
def claimContainsCheck (front : Doc) (cond : Str) : Bool :=
  let lr := splitFirstAt cond (strL "contains")
  let key := trimSpace lr.1
  let needle := stripOneLayer (trimSpace lr.2)
  match lookupD front key with
  | some val => (flattenToStrings val).any (fun item => item == needle)
  | none => false

/-- Model of `SplitFrontmatter` (helpers.go:23).  The Go function indexes
`parts[1]` unconditionally after a `strings.SplitN(content[4:], fence, 2)`;
when the closing fence is absent that read panics with an index
out-of-range error, modelled as `none`.  A `some (delim, fm, body)` result
models a normal return. -/
def SplitFrontmatter (data : Str) : Option (Str × Str × Str) :=
  if startsW data (strL "---\n") then
    match splitNTwo (data.drop 4) (strL "---") with
    | [a, b] => some (strL "---", a, b)
    | _ => none
  else if startsW data (strL "+++\n") then
    match splitNTwo (data.drop 4) (strL "+++") with
    | [a, b] => some (strL "+++", a, b)
    | _ => none
  else if startsW data [Char.ofNat 123] then
    match findSub data [Char.ofNat 125, '\n'] with
    | some idx =>
      if idx > 0 then some ([Char.ofNat 123], data.take (idx + 1), data.drop (idx + 2))
      else some ([], [], data)
    | none => some ([], [], data)
  else some ([], [], data)

/-- Model of Go's `strconv.Quote` character escaping restricted to the
ASCII plane: double quote and backslash are escaped, printable ASCII is
kept, the common control characters use their short escapes, remaining
ASCII control characters use a two-digit hexadecimal escape.  (Non-ASCII
runes print literally here; the theorems only apply it to ASCII data.) -/
def goQuoteChar (c : Char) : Str :=
  if c = Char.ofNat 34 then [Char.ofNat 92, Char.ofNat 34]
  else if c = Char.ofNat 92 then [Char.ofNat 92, Char.ofNat 92]
  else if 32 ≤ c.toNat && c.toNat ≤ 126 then [c]
  else if c = '\n' then [Char.ofNat 92, 'n']
  else if c = '\t' then [Char.ofNat 92, 't']
  else if c = '\r' then [Char.ofNat 92, 'r']
  else if c = Char.ofNat 7 then [Char.ofNat 92, 'a']
  else if c = Char.ofNat 8 then [Char.ofNat 92, 'b']
  else if c = Char.ofNat 12 then [Char.ofNat 92, 'f']
  else if c = Char.ofNat 11 then [Char.ofNat 92, 'v']
  else if c.toNat < 128 then
    [Char.ofNat 92, 'x',
     (if c.toNat / 16 < 10 then Char.ofNat (48 + c.toNat / 16) else Char.ofNat (87 + c.toNat / 16)),
     (if c.toNat % 16 < 10 then Char.ofNat (48 + c.toNat % 16) else Char.ofNat (87 + c.toNat % 16))]
  else [c]

/-- Model of `fmt.Sprintf("%q", s)` (that is `strconv.Quote`). -/
def goQuote (s : Str) : Str :=
  Char.ofNat 34 :: ((s.map goQuoteChar).flatten ++ [Char.ofNat 34])

/-- Consumes one character if it belongs to the accepted set, as the
`accept` steps of `fmt`'s float-token scanner do. -/
def acceptOne (cs : List Char) (s : Str) : Option (Char × Str) :=
  match s with
  | c :: t => if cs.contains c then some (c, t) else none
  | [] => none

/-- Greedily consumes characters from the accepted set. -/
def acceptRun (cs : List Char) (s : Str) : Str × Str :=
  ((s.takeWhile (cs.contains ·)), (s.dropWhile (cs.contains ·)))

/-- The decimal-digit set of `fmt`'s float token (digits plus the
underscore separator). -/
def scanDecDigits : List Char := strL "0123456789_"

/-- The hexadecimal-digit set of `fmt`'s float token. -/
def scanHexDigits : List Char := strL "0123456789aAbBcCdDeEfF_"

/-- Model of `fmt`'s `floatToken`: builds the maximal candidate token,
mirroring the scanner's partially consuming NaN / sign / Inf / hex-prefix
attempts followed by the digits, fraction and exponent runs. -/
def floatTok (s : Str) : Str :=
  match acceptOne (strL "nN") s with
  | some (c1, r1) =>
    match acceptOne (strL "aA") r1 with
    | some (c2, r2) =>
      match acceptOne (strL "nN") r2 with
      | some (c3, _) => [c1, c2, c3]
      | none => [c1, c2] ++ floatTokNum r2
    | none => [c1] ++ floatTokNum r1
  | none =>
    match acceptOne (strL "+-") s with
    | some (c0, r0) => c0 :: floatTokAfterSign r0
    | none => floatTokAfterSign s
where
  /-- The Inf attempt and the numeric tail, after the optional sign. -/
  floatTokAfterSign (s : Str) : Str :=
    match acceptOne (strL "iI") s with
    | some (c1, r1) =>
      match acceptOne (strL "nN") r1 with
      | some (c2, r2) =>
        match acceptOne (strL "fF") r2 with
        | some (c3, _) => [c1, c2, c3]
        | none => [c1, c2] ++ floatTokNum r2
      | none => [c1] ++ floatTokNum r1
    | none => floatTokNum s
  /-- Digits (switching to hexadecimal after a 0x prefix), optional
  fraction, optional exponent. -/
  floatTokNum (s : Str) : Str :=
    match acceptOne (strL "0") s with
    | some (z, r0) =>
      match acceptOne (strL "xX") r0 with
      | some (x, r1) => z :: x :: floatTokTail scanHexDigits (strL "pP") r1
      | none => z :: floatTokTail scanDecDigits (strL "eEpP") r0
    | none => floatTokTail scanDecDigits (strL "eEpP") s
  /-- Digit run, optional point and digit run, optional exponent with
  sign and digit run. -/
  floatTokTail (digits expo : List Char) (s : Str) : Str :=
    let d1 := acceptRun digits s
    let frac :=
      match acceptOne (strL ".") d1.2 with
      | some (p, r) => let d2 := acceptRun digits r; (p :: d2.1, d2.2)
      | none => ([], d1.2)
    let ex :=
      match acceptOne expo frac.2 with
      | some (e, r) =>
        match acceptOne (strL "+-") r with
        | some (sg, r2) => let d3 := acceptRun digits r2; e :: sg :: d3.1
        | none => let d3 := acceptRun digits r; e :: d3.1
      | none => []
    d1.1 ++ frac.1 ++ ex

/-- Lower-cases an ASCII letter. -/
def lowerCh (c : Char) : Char :=
  if 65 ≤ c.toNat && c.toNat ≤ 90 then Char.ofNat (c.toNat + 32) else c

/-- Checks that every underscore in the digit run separates two
digits from the given set, as Go's numeric literals require. -/
def underscoresOk (digits : List Char) (s : Str) : Bool :=
  match s with
  | [] => true
  | ['_'] => false
  | '_' :: _ :: _ => false
  | [_] => true
  | a :: '_' :: c :: t =>
    digits.contains a && digits.contains c && underscoresOk digits (c :: t)
  | _ :: b :: t => underscoresOk digits (b :: t)

/-- A digit run is valid when non-empty after discarding underscores and
its underscores are well-placed. -/
def digitRunOk (digits : List Char) (s : Str) : Bool :=
  s.any (fun c => digits.contains c && c ≠ '_') &&
  s.all (digits.contains ·) &&
  !startsW s (strL "_") && s.getLast? ≠ some '_' && underscoresOk digits s

/-- Model of `strconv.ParseFloat` validity on the tokens the float
scanner can produce: not-a-number and infinity words, decimal mantissa
with optional fraction and decimal exponent, or a hexadecimal mantissa
that requires a binary exponent. -/
def parseFloatOkStr (tok : Str) : Bool :=
  let low := tok.map lowerCh
  if low = strL "nan" || low = strL "inf" || low = strL "+inf" || low = strL "-inf" ||
     low = strL "infinity" || low = strL "+infinity" || low = strL "-infinity" then true
  else
    let body := match tok with
      | '+' :: t => t
      | '-' :: t => t
      | t => t
    if startsW (body.map lowerCh) (strL "0x") then
      parseHexRest (body.drop 2)
    else parseDecRest body
where
  /-- Splits at the exponent marker and validates the pieces of a decimal
  mantissa. -/
  parseDecRest (b : Str) : Bool :=
    let mant := b.takeWhile (fun c => !(c = 'e' || c = 'E'))
    let rest := b.dropWhile (fun c => !(c = 'e' || c = 'E'))
    let intPart := mant.takeWhile (fun c => c ≠ '.')
    let fracWithDot := mant.dropWhile (fun c => c ≠ '.')
    let fracPart := fracWithDot.drop 1
    let digitsPresent :=
      (intPart ≠ [] && digitRunOk scanDecDigits intPart &&
        (fracWithDot = [] || fracPart = [] || digitRunOk scanDecDigits fracPart)) ||
      (intPart = [] && fracWithDot ≠ [] && digitRunOk scanDecDigits fracPart)
    let expOk := match rest with
      | [] => true
      | _ :: e =>
        let e2 := match e with | '+' :: t => t | '-' :: t => t | t => t
        e2 ≠ [] && digitRunOk scanDecDigits e2
    digitsPresent && expOk && !(fracWithDot ≠ [] && fracPart = [] && intPart = [])
  /-- Validates a hexadecimal mantissa with its mandatory binary
  exponent. -/
  parseHexRest (b : Str) : Bool :=
    let mant := b.takeWhile (fun c => !(c = 'p' || c = 'P'))
    let rest := b.dropWhile (fun c => !(c = 'p' || c = 'P'))
    let intPart := mant.takeWhile (fun c => c ≠ '.')
    let fracWithDot := mant.dropWhile (fun c => c ≠ '.')
    let fracPart := fracWithDot.drop 1
    let digitsPresent :=
      (intPart ≠ [] && digitRunOk scanHexDigits intPart &&
        (fracWithDot = [] || (fracPart ≠ [] && digitRunOk scanHexDigits fracPart))) ||
      (intPart = [] && fracPart ≠ [] && digitRunOk scanHexDigits fracPart)
    match rest with
    | [] => false
    | _ :: e =>
      let e2 := match e with | '+' :: t => t | '-' :: t => t | t => t
      digitsPresent && e2 ≠ [] && e2.all (fun c => isDigitCh c)

/-- Model of `fmt.Sscanf(s, "%f", ...) == nil`: skip leading non-newline
spaces, a leading newline is an input error, then the float token must be
non-empty and parse. -/
def scanfFloatOk (s : Str) : Bool :=
  let s1 := s.dropWhile (fun c =>
    c == ' ' || c == '\t' || c == Char.ofNat 11 || c == Char.ofNat 12 || c == '\r')
  match s1 with
  | '\n' :: _ => false
  | _ =>
    let tok := floatTok s1
    tok ≠ [] && parseFloatOkStr tok

/-- The special characters that force quoting in `needsQuotes`
(helpers.go:242), written there as a single cutset string. -/
def specialChars : Str :=
  [Char.ofNat 123, Char.ofNat 125] ++ strL "[]#&*!|>" ++
  [Char.ofNat 39, Char.ofNat 34] ++ strL "%@" ++ [Char.ofNat 96] ++ strL ", "

/-- Model of `needsQuotes` (helpers.go:224): empty strings, yaml-keyword
lookalikes, strings a `%f` scan accepts, strings containing a special
character, and strings starting with dash, colon or question mark. -/
def needsQuotes (s : Str) : Bool :=
  if s = [] then true
  else if [strL "true", strL "false", strL "yes", strL "no", strL "null", strL "~"].contains s then true
  else if scanfFloatOk s then true
  else if s.any (fun c => specialChars.contains c) then true
  else if startsW s (strL "-") || startsW s (strL ":") || startsW s (strL "?") then true
  else false

/-- Model of `formatYAMLValue` (helpers.go:208): strings are quoted when
`needsQuotes` says so, everything else falls back to `%v` display. -/
def formatYAMLValue (v : GoVal) : Str :=
  match v with
  | .scal (.str s) => if needsQuotes s then goQuote s else s
  | .scal x => dispS x
  | .arr _ | .strArr _ => dispV v

/-- The per-item formatting used inside `formatArrayItems` for
`[]interface{}` items: `formatYAMLValue` on a scalar. -/
def fmtYamlItem (x : GoScal) : Str :=
  match x with
  | .str s => if needsQuotes s then goQuote s else s
  | _ => dispS x

/-- Model of `formatArrayItems` (helpers.go:189): `[]interface{}` items
via `formatYAMLValue`, `[]string` items always quoted with `%q`. -/
def formatArrayItems (v : GoVal) : List Str :=
  match v with
  | .arr xs => xs.map fmtYamlItem
  | .strArr ss => ss.map goQuote
  | _ => []

/-- The single output line of one YAML field, without its trailing
newline: arrays render inline between brackets, other values via
`formatYAMLValue`. -/
def yamlFieldBody (field : Str) (v : GoVal) : Str :=
  match v with
  | .arr _ | .strArr _ =>
    field ++ strL ": [" ++ joinSep (strL ", ") (formatArrayItems v) ++ [']']
  | _ => field ++ strL ": " ++ formatYAMLValue v

/-- Model of `addYAMLField` (helpers.go:176): one line per field,
newline-terminated. -/
def addYAMLField (field : Str) (v : GoVal) : Str := yamlFieldBody field v ++ ['\n']

/-- The fixed priority field order of the YAML encoder (helpers.go:73). -/
def orderedFields : List Str :=
  [strL "title", strL "date", strL "draft", strL "series", strL "categories", strL "tags"]

/-- Byte-wise lexicographic order on strings, as `sort.Strings` uses. -/
def strLe : Str → Str → Bool
  | [], _ => true
  | _ :: _, [] => false
  | a :: s, b :: t =>
    if a.toNat < b.toNat then true
    else if b.toNat < a.toNat then false
    else strLe s t

/-- Insertion into a sorted list of strings. -/
def insertStr (x : Str) : List Str → List Str
  | [] => [x]
  | y :: t => if strLe x y then x :: y :: t else y :: insertStr x t

/-- Model of `sort.Strings`: produces the lexicographically sorted
permutation (insertion sort computes the same list as Go's sort since the
order is total). -/
def sortStrs : List Str → List Str
  | [] => []
  | x :: t => insertStr x (sortStrs t)

/-- The first pass of the YAML encoder (helpers.go:76): walk the fixed
priority fields, emit the present ones, and delete each emitted field
from the working copy; returns the emitted text and the remaining copy. -/
def yamlPass : Doc → List Str → Str × Doc
  | copy, [] => ([], copy)
  | copy, f :: fs =>
    match lookupD copy f with
    | some v =>
      let rest := yamlPass (eraseKey copy f) fs
      (addYAMLField f v ++ rest.1, rest.2)
    | none => yamlPass copy fs

/-- The YAML branch of `MarshalFrontmatter` (helpers.go:68): priority
fields first (deleted from the internal copy as they are emitted), then
the remaining fields in sorted key order. -/
def MarshalYaml (front : Doc) : Str :=
  let frontCopy := front
  let pri := yamlPass frontCopy orderedFields
  let remKeys := sortStrs (keysOf pri.2)
  pri.1 ++ (remKeys.map (fun k => addYAMLField k ((lookupD pri.2 k).getD (.scal .nil)))).flatten

/-- The per-item formatting of the TOML array branches (helpers.go:111,
119): strings via `%q`, other items via `%v`. -/
def tomlItem (x : GoScal) : Str :=
  match x with
  | .str s => goQuote s
  | _ => dispS x

/-- One output line of the TOML encoder's type switch (helpers.go:110),
without its trailing newline: arrays inline between brackets, strings
quoted, booleans via `%t`, integers via `%v`; a nil value is not
encodable by the TOML library, so the source's fallback prints it via
`%v`. -/
def tomlFieldBody (key : Str) (v : GoVal) : Str :=
  match v with
  | .strArr ss => key ++ strL " = [" ++ joinSep (strL ", ") (ss.map goQuote) ++ [']']
  | .arr xs => key ++ strL " = [" ++ joinSep (strL ", ") (xs.map tomlItem) ++ [']']
  | .scal (.str s) => key ++ strL " = " ++ goQuote s
  | .scal (.boolean b) => key ++ strL " = " ++ boolStr b
  | .scal (.int n) => key ++ strL " = " ++ intToStr n
  | .scal .nil => key ++ strL " = " ++ dispS .nil

/-- A newline-terminated TOML field line. -/
def tomlFieldLine (key : Str) (v : GoVal) : Str := tomlFieldBody key v ++ ['\n']

/-- The TOML branch of `MarshalFrontmatter` (helpers.go:96): all keys in
sorted order, one line each. -/
def MarshalToml (front : Doc) : Str :=
  ((sortStrs (keysOf front)).map
    (fun k => tomlFieldLine k ((lookupD front k).getD (.scal .nil)))).flatten

/-- A hexadecimal digit character as `encoding/json` prints it
(lower case). -/
def hexCh (n : Nat) : Char :=
  if n < 10 then Char.ofNat (48 + n) else Char.ofNat (87 + n)

/-- Model of `encoding/json` string escaping with the default HTML
escaping: quote, backslash, the angle brackets and ampersand, and control
characters are escaped; other ASCII passes through. -/
def jsonEscChar (c : Char) : Str :=
  if c = Char.ofNat 34 then [Char.ofNat 92, Char.ofNat 34]
  else if c = Char.ofNat 92 then [Char.ofNat 92, Char.ofNat 92]
  else if c = '\n' then [Char.ofNat 92, 'n']
  else if c = '\r' then [Char.ofNat 92, 'r']
  else if c = '\t' then [Char.ofNat 92, 't']
  else if c.toNat < 32 then
    [Char.ofNat 92, 'u', '0', '0', hexCh (c.toNat / 16), hexCh (c.toNat % 16)]
  else if c = '<' then strL "\\u003c"
  else if c = '>' then strL "\\u003e"
  else if c = '&' then strL "\\u0026"
  else [c]

/-- A JSON string literal for `s`. -/
def jsonQuote (s : Str) : Str :=
  Char.ofNat 34 :: ((s.map jsonEscChar).flatten ++ [Char.ofNat 34])

/-- The indentation prefix at nesting depth `n` for an indent unit of
two spaces. -/
def pad (n : Nat) : Str := List.replicate (2 * n) ' '

/-- A JSON scalar rendering. -/
def jsonScal (x : GoScal) : Str :=
  match x with
  | .str s => jsonQuote s
  | .boolean b => boolStr b
  | .int n => intToStr n
  | .nil => strL "null"

/-- A JSON array as `json.MarshalIndent` prints it: empty arrays inline,
non-empty arrays with one element per line at the next depth. -/
def jsonArr (depth : Nat) (items : List Str) : Str :=
  match items with
  | [] => strL "[]"
  | _ =>
    '[' :: '\n' ::
      (joinSep (strL ",\n") (items.map (fun i => pad (depth + 1) ++ i)) ++
        '\n' :: (pad depth ++ [']']))

/-- A JSON value at the given nesting depth. -/
def jsonVal (depth : Nat) (v : GoVal) : Str :=
  match v with
  | .scal x => jsonScal x
  | .arr xs => jsonArr depth (xs.map jsonScal)
  | .strArr ss => jsonArr depth (ss.map jsonQuote)

/-- The JSON branch of `MarshalFrontmatter` (helpers.go:167): model of
`json.MarshalIndent(front, "", "  ")` on the document — keys sorted, two
space indentation, no trailing newline. -/
def MarshalJson (front : Doc) : Str :=
  match sortStrs (keysOf front) with
  | [] => [Char.ofNat 123, Char.ofNat 125]
  | ks =>
    Char.ofNat 123 :: '\n' ::
      (joinSep (strL ",\n")
        (ks.map (fun k =>
          pad 1 ++ jsonQuote k ++ strL ": " ++
            jsonVal 1 ((lookupD front k).getD (.scal .nil)))) ++
        '\n' :: [Char.ofNat 125])

/-- The delimiter constants (helpers.go:368). -/
def YamlDelimiter : Str := strL "---"

/-- The TOML delimiter constant. -/
def TomlDelimiter : Str := strL "+++"

/-- The JSON delimiter constant (an opening brace). -/
def JsonDelimiter : Str := [Char.ofNat 123]

/-- Model of `MarshalFrontmatter` (helpers.go:60) together with the final
state of the caller's map: the source first copies `front` into
`frontCopy` and every later mutation (the deletes of the YAML branch,
inside `yamlPass`) targets that copy, so the caller's map is returned
unchanged as the second component. -/
def MarshalFrontmatterS (delimiter : Str) (front : Doc) : Except Str Str × Doc :=
  if delimiter = YamlDelimiter then (.ok (MarshalYaml front), front)
  else if delimiter = TomlDelimiter then (.ok (MarshalToml front), front)
  else if delimiter = JsonDelimiter then (.ok (MarshalJson front), front)
  else (.error (strL "unsupported frontmatter format: " ++ delimiter), front)

/-- The returned bytes (or error) of `MarshalFrontmatter`. -/
def MarshalFrontmatter (delimiter : Str) (front : Doc) : Except Str Str :=
  (MarshalFrontmatterS delimiter front).1

/-- Splitting a character list at every occurrence of a separator
character. -/
def splitChar (sep : Char) : Str → List Str
  | [] => [[]]
  | a :: t =>
    if a == sep then [] :: splitChar sep t
    else
      match splitChar sep t with
      | h :: r => (a :: h) :: r
      | [] => [[a]]

/-- The plain scalars `gopkg.in/yaml.v2` resolves to boolean true
(YAML 1.1). -/
def yamlTrueWords : List Str :=
  [strL "y", strL "Y", strL "yes", strL "Yes", strL "YES",
   strL "true", strL "True", strL "TRUE", strL "on", strL "On", strL "ON"]

/-- The plain scalars `gopkg.in/yaml.v2` resolves to boolean false. -/
def yamlFalseWords : List Str :=
  [strL "n", strL "N", strL "no", strL "No", strL "NO",
   strL "false", strL "False", strL "FALSE", strL "off", strL "Off", strL "OFF"]

/-- The plain scalars `gopkg.in/yaml.v2` resolves to null. -/
def yamlNullWords : List Str := [strL "~", strL "null", strL "Null", strL "NULL", strL ""]

/-- The plain scalars `gopkg.in/yaml.v2` resolves to floating-point
infinities and not-a-number; floats are outside the modelled value
domain, so these resolve to `none` below. -/
def yamlFloatWords : List Str :=
  [strL ".inf", strL "-.inf", strL "+.inf", strL ".Inf", strL "-.Inf", strL "+.Inf",
   strL ".INF", strL "-.INF", strL "+.INF", strL ".nan", strL ".NaN", strL ".NAN"]

/-- Value of a hexadecimal digit, if any. -/
def hexVal (c : Char) : Option Nat :=
  if isDigitCh c then some (digitVal c)
  else if 97 ≤ c.toNat && c.toNat ≤ 102 then some (c.toNat - 87)
  else if 65 ≤ c.toNat && c.toNat ≤ 70 then some (c.toNat - 55)
  else none

/-- Digit-string value in the given base, if every character is a valid
digit of that base. -/
def parseBase (base : Nat) : Str → Option Nat
  | [] => none
  | ds =>
    ds.foldlM
      (fun acc c =>
        (hexVal c).bind (fun v => if v < base then some (acc * base + v) else none))
      0

/-- Model of the integer resolution of `gopkg.in/yaml.v2` on a plain
scalar: underscores are stripped and the result parsed as
`strconv.ParseInt(s, 0, 64)` does — a 0x/0b/0o prefix selects the base,
a bare leading zero selects octal, otherwise decimal.  (The int64 range
check is not modelled; the integers the encoder can print are exact.) -/
def parseYamlInt (s0 : Str) : Option Int :=
  let s := s0.filter (fun c => c ≠ '_')
  let neg : Bool := startsW s (strL "-")
  let body : Str :=
    if startsW s (strL "-") || startsW s (strL "+") then s.drop 1 else s
  let mag : Option Nat :=
    if startsW body (strL "0x") || startsW body (strL "0X") then parseBase 16 (body.drop 2)
    else if startsW body (strL "0b") || startsW body (strL "0B") then parseBase 2 (body.drop 2)
    else if startsW body (strL "0o") || startsW body (strL "0O") then parseBase 8 (body.drop 2)
    else if body = strL "0" then some 0
    else if startsW body (strL "0") then parseBase 8 (body.drop 1)
    else if body ≠ [] && body.all isDigitCh then parseBase 10 body
    else none
  mag.map (fun m => if neg then -(m : Int) else (m : Int))

/-- Model of the plain-scalar resolution of `gopkg.in/yaml.v2`
(resolve.go) restricted to the modelled value domain: the boolean and
null word lists, then integers; scalars that would resolve to values
outside the domain (floats, and other numeric-looking scalars such as
timestamps or sexagesimals, none of which the encoder can emit bare)
yield `none`. -/
def yamlResolve (s : Str) : Option GoScal :=
  if yamlTrueWords.contains s then some (.boolean true)
  else if yamlFalseWords.contains s then some (.boolean false)
  else if yamlNullWords.contains s then some .nil
  else if yamlFloatWords.contains s then none
  else
    let body : Str :=
      if startsW s (strL "-") || startsW s (strL "+") then s.drop 1 else s
    match body with
    | [] => some (.str s)
    | c :: _ =>
      if isDigitCh c || c = '.' then
        match parseYamlInt s with
        | some n => some (.int n)
        | none => none
      else some (.str s)

/-- Parses the body of a double-quoted scalar (after the opening quote):
returns the unescaped content and the text following the closing quote;
escapes outside the modelled subset fail. -/
def unqAux : Str → Option (Str × Str)
  | [] => none
  | c :: rest =>
    if c = Char.ofNat 34 then some ([], rest)
    else if c = Char.ofNat 92 then
      match rest with
      | [] => none
      | e :: rest2 =>
        let dec : Option Char :=
          if e = 'n' then some '\n'
          else if e = 't' then some '\t'
          else if e = 'r' then some '\r'
          else if e = Char.ofNat 34 then some (Char.ofNat 34)
          else if e = Char.ofNat 92 then some (Char.ofNat 92)
          else none
        match dec with
        | none => none
        | some d => (unqAux rest2).map (fun p => (d :: p.1, p.2))
    else (unqAux rest).map (fun p => (c :: p.1, p.2))

/-- Fuel-driven parser for the items of a flow sequence, positioned
after the opening bracket: returns the items and the text after the
closing bracket. -/
def flowGo : Nat → Str → Option (List GoScal × Str)
  | 0, _ => none
  | fuel + 1, s0 =>
    match s0.dropWhile (fun c => c == ' ') with
    | [] => none
    | c :: rest =>
      if c = ']' then some ([], rest)
      else
        match (if c = Char.ofNat 34 then
                 (unqAux rest).map (fun p => (GoScal.str p.1, p.2))
               else
                 if trimSpace ((c :: rest).takeWhile (fun ch => ch ≠ ',' && ch ≠ ']')) = [] then
                   none
                 else
                   (yamlResolve
                       (trimSpace ((c :: rest).takeWhile (fun ch => ch ≠ ',' && ch ≠ ']')))).map
                     (fun v => (v, (c :: rest).dropWhile (fun ch => ch ≠ ',' && ch ≠ ']')))) with
        | none => none
        | some (v, r1) =>
          match r1.dropWhile (fun ch => ch == ' ') with
          | c2 :: r2 =>
            if c2 = ']' then some ([v], r2)
            else if c2 = ',' then (flowGo fuel r2).map (fun p => (v :: p.1, p.2))
            else none
          | [] => none

/-- Parses one already-trimmed YAML value: double-quoted scalar, flow
sequence, or plain scalar (single-quoted scalars and block forms are
outside the modelled subset). -/
def parseYamlValue (v : Str) : Option GoVal :=
  match v with
  | [] => some (.scal .nil)
  | c :: rest =>
    if c = Char.ofNat 34 then
      match unqAux rest with
      | some (content, []) => some (.scal (.str content))
      | _ => none
    else if c = '[' then
      match flowGo (rest.length + 1) rest with
      | some (items, []) => some (.arr items)
      | _ => none
    else if c = Char.ofNat 39 then none
    else (yamlResolve v).map (fun x => GoVal.scal x)

/-- Parses one `key: value` mapping line; the key must be a plain scalar
that resolves to itself as a string (other keys are outside the modelled
subset or are rejected by the library when decoding into a map keyed by
strings). -/
def decodeYamlLine (line : Str) : Option (Str × GoVal) :=
  match findSub line (strL ":") with
  | none => none
  | some i =>
    if trimSpace (line.take i) = [] then none
    else if yamlResolve (trimSpace (line.take i)) ≠ some (.str (trimSpace (line.take i))) then
      none
    else
      match line.drop (i + 1) with
      | [] => some (trimSpace (line.take i), .scal .nil)
      | c :: _ =>
        if c = ' ' then
          (parseYamlValue (trimSpace (line.drop (i + 1)))).map
            (fun v => (trimSpace (line.take i), v))
        else none

/-- Inserts a decoded pair into the document under Go map semantics: a
repeated key overwrites the earlier binding. -/
def upsert (d : Doc) (k : Str) (v : GoVal) : Doc :=
  if (lookupD d k).isSome then
    d.map (fun kv => if kv.1 = k then (k, v) else kv)
  else d ++ [(k, v)]

/-- Model of `UnmarshalFrontmatter` for the YAML delimiter
(helpers.go:47, a call to `gopkg.in/yaml.v2`'s `Unmarshal` into a
`map[string]interface{}`), restricted to the line-oriented subset that
`MarshalFrontmatter` emits: one `key: value` mapping line per field with
double-quoted, flow-sequence or plain scalars.  `none` models both a
decode error and input outside the modelled subset. -/
def decodeYaml (s : Str) : Option Doc :=
  (((splitChar '\n' s).filter (fun l => l ≠ [])).mapM decodeYamlLine).map
    (fun ps => ps.foldl (fun d kv => upsert d kv.1 kv.2) [])

/-- Printable ASCII (the character domain on which the quoting models
are exact). -/
def printableAscii (c : Char) : Bool := 32 ≤ c.toNat && c.toNat ≤ 126

/-- A string value that survives the YAML encode/decode round trip: its
characters are printable ASCII, and if the encoder leaves it bare then
the resolver reads it back as the same string. -/
def safeStr (s : Str) : Bool :=
  s.all printableAscii && (needsQuotes s || yamlResolve s == some (.str s))

/-- A scalar that survives the YAML round trip (`nil` does not: it
prints as a bracketed nil word that re-decodes as a string). -/
def safeScal : GoScal → Bool
  | .str s => safeStr s
  | .boolean _ => true
  | .int _ => true
  | .nil => false

/-- A value that survives the YAML round trip; `[]string` values are
excluded because decoding always produces `[]interface{}`, so they
cannot occur in a decoded document. -/
def safeVal : GoVal → Bool
  | .scal x => safeScal x
  | .arr xs => xs.all safeScal
  | .strArr _ => false

/-- A key the encoder writes bare and the decoder reads back: non-empty,
over a conservative identifier alphabet, resolving to itself. -/
def safeKey (k : Str) : Bool :=
  k ≠ [] &&
  k.all (fun c =>
    isDigitCh c || (97 ≤ c.toNat && c.toNat ≤ 122) || (65 ≤ c.toNat && c.toNat ≤ 90) ||
    c = '_' || c = '-') &&
  yamlResolve k == some (.str k)

/-- A document on which the YAML round trip is provably idempotent:
unique keys, safe keys, safe values. -/
def SafeDoc (d : Doc) : Bool :=
  nodupKeys d && d.all (fun kv => safeKey kv.1 && safeVal kv.2)

/-- The field emission order of the YAML encoder, characterized without
the delete-threading of `yamlPass`: the present priority fields in their
fixed order, then every other field sorted by key. -/
def yamlOrderedPairs (front : Doc) : List (Str × GoVal) :=
  orderedFields.filterMap (fun f => (lookupD front f).map (fun v => (f, v))) ++
  (sortStrs (keysOf (front.filter (fun kv => !(orderedFields.contains kv.1))))).map
    (fun k => (k, (lookupD front k).getD (.scal .nil)))

/-- Whether a string contains no newline character. -/
def lineFree (s : Str) : Bool := !(s.contains '\n')

/-- Whether a value's rendered forms stay on one line: bare strings must
be newline-free (quoted strings always are, since quoting escapes every
control character). -/
def valLineSafe : GoVal → Bool
  | .scal (.str s) => needsQuotes s || lineFree s
  | .arr xs =>
    xs.all (fun x =>
      match x with
      | .str s => needsQuotes s || lineFree s
      | _ => true)
  | _ => true

/-- A document whose keys and rendered values are newline-free, so that
every encoded field occupies exactly one output line. -/
def docLineSafe (front : Doc) : Bool :=
  front.all (fun kv => lineFree kv.1 && valLineSafe kv.2)

-- Equality of `Except` results is decidable (used by the concrete
-- counterexamples and witnesses).
deriving instance DecidableEq for Except

/-! ## Helper lemmas -/

/-- A failed containment search means the underlying index search failed. -/
theorem findSub_eq_none_of_not_contains {s pat : Str}
    (h : containsSub s pat = false) : findSub s pat = none := by
  unfold containsSub at h
  cases hf : findSub s pat with
  | none => rfl
  | some i => rw [hf] at h; simp [Option.isSome] at h

/-- A string starting with three plus signs does not start with three
dashes. -/
theorem not_dash_of_plus {d : Str}
    (h : startsW d (strL "+++\n") = true) : startsW d (strL "---\n") = false := by
  cases d with
  | nil => simp [startsW, strL] at h
  | cons a t =>
    simp only [strL, startsW, String.data] at h ⊢
    rcases Bool.and_eq_true_iff.mp h with ⟨ha, _⟩
    have : a = '+' := by
      have := of_decide_eq_true (by simpa [BEq.beq] using ha)
      exact this
    subst this
    simp

/-! ## C1: evaluation of the empty expression -/

/-- Claim C1 counterexample: the claim states that for every document D,
`evaluate(D, "") == true`; on the code, the empty expression yields the
single empty clause, which matches none of the three rule shapes and
fails closed, so `EvaluateConditions` returns false on a concrete
document. -/
theorem c1_empty_expression_counterexample :
    EvaluateConditions [(strL "draft", .scal (.boolean true))] (strL "") = false := by
  decide

/-- Claim C1 amended: for every document, evaluating the empty expression
returns false — `strings.Split` yields a singleton list containing the
empty clause (never an empty list), the empty clause matches no rule
shape, and the treat-all-documents behavior for an absent condition is
implemented by the callers, which skip evaluation for an empty condition
string. -/
theorem c1_empty_expression_amended :
    ∀ front : Doc, EvaluateConditions front (strL "") = false := by
  intro front
  rfl

/-! ## C5: the membership rule -/

/-- Claim C5 counterexample: the claim states the clause is split on the
FIRST occurrence of the word contains, making the needle the whole
trimmed right-hand remainder.  On the clause `a contains b contains c`
the code's `strings.Split` instead takes the segment between the first
and second occurrences as the needle, so the code returns true on a
document where the claim's semantics (`claimContainsCheck`) returns
false. -/
theorem c5_contains_counterexample :
    CheckCondition [(strL "a", .arr [.str (strL "b")])]
        (strL "a contains b contains c") = true ∧
      claimContainsCheck [(strL "a", .arr [.str (strL "b")])]
        (strL "a contains b contains c") = false := by
  constructor
  · decide
  · decide

/-- Claim C5 amended: when a clause does not match the date rule and
contains the word contains, the check splits the clause on EVERY
occurrence of the word: the key is the trimmed first segment and the
needle is the trimmed second segment (the text between the first and
second occurrences), then stripped of ALL leading and trailing single or
double quote characters; the result is true iff the needle equals some
element of the flattened field value exactly. -/
theorem c5_contains_amended :
    ∀ (front : Doc) (cond : Str),
      dateShape cond = false → containsShape cond = true →
      CheckCondition front cond =
        (match lookupD front (trimSpace (getIdx (splitOnSep cond (strL "contains")) 0)) with
         | some val =>
           (flattenToStrings val).any (fun item =>
             item == trimChars (trimSpace (getIdx (splitOnSep cond (strL "contains")) 1))
               [Char.ofNat 34, Char.ofNat 39])
         | none => false) := by
  intro front cond h1 h2
  unfold dateShape at h1
  unfold containsShape at h2
  unfold CheckCondition
  rw [h1, h2]
  simp

/-- Witness for the amended claim C5 at a concrete clause and document. -/
theorem c5_contains_witness :
    dateShape (strL "tags contains 'beta'") = false ∧
      containsShape (strL "tags contains 'beta'") = true ∧
      CheckCondition [(strL "tags", .arr [.str (strL "beta")])]
        (strL "tags contains 'beta'") = true := by
  refine ⟨by decide, by decide, ?_⟩
  rw [c5_contains_amended [(strL "tags", .arr [.str (strL "beta")])]
    (strL "tags contains 'beta'") (by decide) (by decide)]
  decide

/-! ## C6: fixed structural dispatch order -/

/-- Claim C6 confirmed: the single-conjunct check tries the three clause
shapes in the fixed structural order — the date rule (clause contains a
less-than sign and starts with the word date), else the membership rule
(clause contains the word contains), else the equality rule (clause
contains an equals sign) — and the first structural match decides the
result, regardless of what a later rule would say. -/
theorem c6_dispatch_order :
    ∀ (front : Doc) (cond : Str),
      CheckCondition front cond =
        if dateShape cond then dateRule front cond
        else if containsShape cond then containsRule front cond
        else if eqShape cond then eqRule front cond
        else false := by
  intro front cond
  unfold CheckCondition dateShape dateRule containsShape containsRule eqShape eqRule
  rfl

/-! ## C7: total, fail-closed evaluation -/

/-- Claim C7 confirmed: a clause matching none of the three recognized
shapes resolves to false.  (Evaluation is a total function into `Bool`
throughout this model; the source never indexes out of range because
each `parts[1]` access is guarded by the corresponding containment
check, and no other statement can panic.) -/
theorem c7_fail_closed :
    ∀ (front : Doc) (cond : Str),
      dateShape cond = false → containsShape cond = false → eqShape cond = false →
      CheckCondition front cond = false := by
  intro front cond h1 h2 h3
  unfold dateShape at h1
  unfold containsShape at h2
  unfold eqShape at h3
  unfold CheckCondition
  rw [h1, h2, h3]
  simp

/-- Witness for claim C7 at a concrete unrecognizable clause. -/
theorem c7_fail_closed_witness :
    dateShape (strL "draft is true") = false ∧
      containsShape (strL "draft is true") = false ∧
      eqShape (strL "draft is true") = false ∧
      CheckCondition [(strL "draft", .scal (.boolean true))] (strL "draft is true") = false :=
  ⟨by decide, by decide, by decide,
    c7_fail_closed [(strL "draft", .scal (.boolean true))] (strL "draft is true")
      (by decide) (by decide) (by decide)⟩

/-! ## C8: the date rule's error handling -/

/-- Claim C8 counterexample: the claim states that any parse failure on
either side yields false, but the code discards the cutoff parse error
(`cutoffTime, _ := time.Parse(...)`), leaving the zero time 0001-01-01
as the cutoff; a document date of `0000-01-01` (which `time.Parse`
accepts) is strictly before the zero time, so the clause with an
unparsable right-hand side returns true. -/
theorem c8_date_counterexample :
    parseDate (strL "oops") = none ∧
      CheckCondition [(strL "date", .scal (.str (strL "0000-01-01")))]
        (strL "date<oops") = true := by
  constructor
  · decide
  · decide

/-- Claim C8 amended: on a date-shaped clause, the check returns false
when the document's date field is absent or fails to parse; a parse
failure on the right-hand side is silently replaced by the zero time
0001-01-01, so the clause is then true exactly when the document date
parses and lies strictly before 0001-01-01 (only year-zero dates do). -/
theorem c8_date_amended :
    ∀ (front : Doc) (cond : Str),
      dateShape cond = true →
      CheckCondition front cond =
        (match lookupD front (strL "date") with
         | some val =>
           match parseDate (dispV val) with
           | some postTime =>
             dateBefore postTime
               ((parseDate (trimSpace (getIdx (splitOnSep cond (strL "<")) 1))).getD zeroDate)
           | none => false
         | none => false) := by
  intro front cond h1
  unfold dateShape at h1
  unfold CheckCondition
  rw [h1]
  simp

/-- Witness for the amended claim C8 at a concrete clause and document. -/
theorem c8_date_witness :
    dateShape (strL "date<2024-01-01") = true ∧
      CheckCondition [(strL "date", .scal (.str (strL "2023-01-01")))]
        (strL "date<2024-01-01") = true := by
  refine ⟨by decide, ?_⟩
  rw [c8_date_amended [(strL "date", .scal (.str (strL "2023-01-01")))]
    (strL "date<2024-01-01") (by decide)]
  decide

/-! ## C9: missing closing fence -/

/-- Claim C9 confirmed: on input that begins with a yaml or toml fence
line but contains no later occurrence of the fence token, the Go
function indexes the missing second part of a one-element split and
panics with an index out-of-range error instead of returning a no-metadata
result; the panic is modelled as `none`. -/
theorem c9_missing_fence :
    ∀ data : Str,
      (startsW data (strL "---\n") = true →
        containsSub (data.drop 4) (strL "---") = false →
        SplitFrontmatter data = none) ∧
      (startsW data (strL "+++\n") = true →
        containsSub (data.drop 4) (strL "+++") = false →
        SplitFrontmatter data = none) := by
  intro data
  constructor
  · intro h1 h2
    unfold SplitFrontmatter
    rw [h1]
    simp only [if_true]
    unfold splitNTwo
    rw [findSub_eq_none_of_not_contains h2]
  · intro h1 h2
    unfold SplitFrontmatter
    rw [h1, not_dash_of_plus h1]
    simp only [if_true, Bool.false_eq_true, if_false]
    unfold splitNTwo
    rw [findSub_eq_none_of_not_contains h2]

/-- Witness for claim C9: concrete unterminated yaml-style and
toml-style inputs both hit the panic path. -/
theorem c9_missing_fence_witness :
    (startsW (strL "---\ntitle: x\n") (strL "---\n") = true ∧
      containsSub ((strL "---\ntitle: x\n").drop 4) (strL "---") = false ∧
      SplitFrontmatter (strL "---\ntitle: x\n") = none) ∧
    (startsW (strL "+++\ntitle = 1\n") (strL "+++\n") = true ∧
      containsSub ((strL "+++\ntitle = 1\n").drop 4) (strL "+++") = false ∧
      SplitFrontmatter (strL "+++\ntitle = 1\n") = none) :=
  ⟨⟨by decide, by decide,
      (c9_missing_fence (strL "---\ntitle: x\n")).1 (by decide) (by decide)⟩,
    ⟨by decide, by decide,
      (c9_missing_fence (strL "+++\ntitle = 1\n")).2 (by decide) (by decide)⟩⟩

/-! ## C10: the encoder does not mutate the caller's map -/

/-- Claim C10 confirmed: `MarshalFrontmatter` leaves the caller's map
unchanged for every delimiter and document — the source copies the map
on entry and the YAML branch's deletes target only that internal copy
(`yamlPass` threads the copy explicitly), so the caller-visible state
returned in the second component is the input map itself. -/
theorem c10_marshal_frame :
    ∀ (delimiter : Str) (front : Doc),
      (MarshalFrontmatterS delimiter front).2 = front := by
  intro delimiter front
  unfold MarshalFrontmatterS
  repeat' split
  all_goals rfl

/-! ## Lemmas on lookup, erase and sorting -/

/-- A key that fails to look up is bound nowhere in the document. -/
theorem lookupD_none_forall {d : Doc} {f : Str} (h : lookupD d f = none) :
    ∀ kv ∈ d, kv.1 ≠ f := by
  induction d with
  | nil => intro kv hkv; cases hkv
  | cons kv0 t ih =>
    intro kv hkv
    obtain ⟨k0, v0⟩ := kv0
    unfold lookupD at h
    by_cases hk : k0 = f
    · simp [hk] at h
    · simp only [hk, if_false] at h
      rcases List.mem_cons.mp hkv with h1 | h1
      · simp [h1, hk]
      · exact ih h kv h1

/-- Deleting an absent key is a no-op. -/
theorem eraseKey_of_lookup_none {d : Doc} {f : Str} (h : lookupD d f = none) :
    eraseKey d f = d := by
  induction d with
  | nil => rfl
  | cons kv0 t ih =>
    obtain ⟨k0, v0⟩ := kv0
    unfold lookupD at h
    by_cases hk : k0 = f
    · simp [hk] at h
    · simp only [hk, if_false] at h
      unfold eraseKey at ih ⊢
      rw [List.filter_cons, if_pos (by simp [hk]), ih h]

/-- Deleting one key does not change the binding of a different key. -/
theorem lookupD_eraseKey_ne {d : Doc} {f g : Str} (h : g ≠ f) :
    lookupD (eraseKey d f) g = lookupD d g := by
  induction d with
  | nil => rfl
  | cons kv0 t ih =>
    obtain ⟨k0, v0⟩ := kv0
    unfold eraseKey at ih ⊢
    rw [List.filter_cons]
    by_cases hk : k0 = f
    · rw [if_neg (by simp [hk]), ih]
      subst hk
      conv_rhs => unfold lookupD
      rw [if_neg (fun hfg => h hfg.symm)]
    · rw [if_pos (by simp [hk])]
      unfold lookupD
      by_cases hkg : k0 = g
      · rw [if_pos hkg, if_pos hkg]
      · rw [if_neg hkg, if_neg hkg, ih]

/-- Looking up through a filter that keeps the key is looking up
directly. -/
theorem lookupD_filter_of_pred {d : Doc} {p : Str → Bool} {k : Str} (hk : p k = true) :
    lookupD (d.filter (fun kv => p kv.1)) k = lookupD d k := by
  induction d with
  | nil => rfl
  | cons kv0 t ih =>
    obtain ⟨k0, v0⟩ := kv0
    rw [List.filter_cons]
    by_cases hp : p k0 = true
    · rw [if_pos hp]
      unfold lookupD
      by_cases hk0 : k0 = k
      · rw [if_pos hk0, if_pos hk0]
      · rw [if_neg hk0, if_neg hk0, ih]
    · have hk0 : ¬ k0 = k := fun he => hp (he ▸ hk)
      rw [if_neg (by simp [hp]), ih]
      conv_rhs => unfold lookupD
      rw [if_neg hk0]

/-- The keys of a key-filtered document are the filtered keys. -/
theorem keysOf_filter (p : Str → Bool) (d : Doc) :
    keysOf (d.filter (fun kv => p kv.1)) = (keysOf d).filter p := by
  induction d with
  | nil => rfl
  | cons kv0 t ih =>
    obtain ⟨k0, v0⟩ := kv0
    rw [List.filter_cons]
    by_cases hp : p k0 = true
    · rw [if_pos hp]
      show k0 :: keysOf (t.filter (fun kv => p kv.1)) = (k0 :: keysOf t).filter p
      rw [List.filter_cons, if_pos hp, ih]
    · rw [if_neg (by simp [hp]), ih]
      show (keysOf t).filter p = (k0 :: keysOf t).filter p
      rw [List.filter_cons, if_neg (by simp [hp])]

/-- Insertion preserves the elements of a list. -/
theorem insertStr_perm (x : Str) (l : List Str) : (insertStr x l).Perm (x :: l) := by
  induction l with
  | nil => rfl
  | cons y t ih =>
    unfold insertStr
    by_cases h : strLe x y = true
    · simp [h]
    · rw [if_neg (by simp [h])]
      exact (ih.cons y).trans (List.Perm.swap x y t)

/-- The model of `sort.Strings` permutes its input. -/
theorem sortStrs_perm (l : List Str) : (sortStrs l).Perm l := by
  induction l with
  | nil => rfl
  | cons x t ih =>
    unfold sortStrs
    exact (insertStr_perm x (sortStrs t)).trans (ih.cons x)

/-- The working copy left by the priority pass is the document without
the passed fields. -/
theorem yamlPass_snd :
    ∀ (fs : List Str) (copy : Doc),
      (yamlPass copy fs).2 = copy.filter (fun kv => decide (kv.1 ∉ fs)) := by
  intro fs
  induction fs with
  | nil =>
    intro copy
    show copy = copy.filter (fun kv => decide (kv.1 ∉ ([] : List Str)))
    have he : (fun (kv : Str × GoVal) => decide (kv.1 ∉ ([] : List Str))) = fun _ => true := by
      funext kv; simp
    rw [he, List.filter_true]
  | cons f fs' ih =>
    intro copy
    unfold yamlPass
    cases h : lookupD copy f with
    | none =>
      simp only []
      rw [ih copy]
      refine List.filter_congr ?_
      intro kv hkv
      have hne : kv.1 ≠ f := lookupD_none_forall h kv hkv
      by_cases hm : kv.1 ∈ fs' <;> simp [hm, hne, List.mem_cons]
    | some v =>
      simp only []
      rw [ih (eraseKey copy f)]
      unfold eraseKey
      rw [List.filter_filter]
      refine List.filter_congr ?_
      intro kv _
      by_cases hf : kv.1 = f <;> by_cases hm : kv.1 ∈ fs' <;>
        simp [hf, hm, List.mem_cons]

/-- The text emitted by the priority pass: one field line per present
priority field, in priority order. -/
theorem yamlPass_fst :
    ∀ (fs : List Str), fs.Nodup →
      ∀ copy : Doc,
        (yamlPass copy fs).1 =
          (fs.filterMap (fun f => (lookupD copy f).map (fun v => addYAMLField f v))).flatten := by
  intro fs
  induction fs with
  | nil => intro _ copy; rfl
  | cons f fs' ih =>
    intro hnd copy
    rcases List.nodup_cons.mp hnd with ⟨hf, hnd'⟩
    unfold yamlPass
    cases h : lookupD copy f with
    | none =>
      simp only [List.filterMap_cons, h, Option.map_none']
      exact ih hnd' copy
    | some v =>
      simp only [List.filterMap_cons, h, Option.map_some', List.flatten_cons]
      rw [ih hnd' (eraseKey copy f)]
      congr 2
      refine List.filterMap_congr ?_
      intro g hg
      rw [lookupD_eraseKey_ne (fun hgf : g = f => hf (hgf ▸ hg))]

/-- The full characterization of the YAML encoder: its output is the
concatenation of one field line per entry of `yamlOrderedPairs` — the
present priority fields in their fixed order, then the remaining fields
in sorted key order. -/
theorem marshalYaml_eq_orderedPairs (front : Doc) :
    MarshalYaml front =
      ((yamlOrderedPairs front).map (fun kv => addYAMLField kv.1 kv.2)).flatten := by
  rw [show MarshalYaml front =
    (yamlPass front orderedFields).1 ++
      ((sortStrs (keysOf (yamlPass front orderedFields).2)).map
        (fun k => addYAMLField k
          ((lookupD (yamlPass front orderedFields).2 k).getD (.scal .nil)))).flatten from rfl]
  unfold yamlOrderedPairs
  rw [List.map_append, List.flatten_append]
  have hpred : ∀ kv : Str × GoVal,
      (decide (kv.1 ∉ orderedFields)) = !(orderedFields.contains kv.1) := by
    intro kv
    by_cases hm : kv.1 ∈ orderedFields <;> simp [hm]
  have hfilter :
      (yamlPass front orderedFields).2 =
        front.filter (fun kv => !(orderedFields.contains kv.1)) := by
    rw [yamlPass_snd]
    exact List.filter_congr (fun kv _ => hpred kv)
  congr 1
  · rw [yamlPass_fst orderedFields (by decide) front, List.map_filterMap]
    refine congrArg List.flatten ?_
    refine List.filterMap_congr ?_
    intro f _
    cases lookupD front f <;> simp
  · rw [hfilter, List.map_map]
    refine congrArg List.flatten ?_
    refine List.map_congr_left ?_
    intro k hk
    have hk2 : k ∈ keysOf (front.filter (fun kv => !(orderedFields.contains kv.1))) :=
      ((sortStrs_perm _).mem_iff).mp hk
    rw [keysOf_filter (fun k => !(orderedFields.contains k)) front] at hk2
    have hpk : (!(orderedFields.contains k)) = true := (List.mem_filter.mp hk2).2
    have hlk : lookupD (front.filter (fun kv => !(orderedFields.contains kv.1))) k =
        lookupD front k :=
      @lookupD_filter_of_pred front (fun s => !(orderedFields.contains s)) k hpk
    exact congrArg (fun o : Option GoVal =>
      addYAMLField k (o.getD (GoVal.scal GoScal.nil))) hlk

/-! ## C2: field emission order -/

/-- Claim C2 counterexample: the claim states that every tag emits the
priority sequence first (in particular title before date); the
toml-style encoder instead sorts ALL keys lexicographically, so on a
document with title and date fields the date line is emitted first and
the index of the title text is not smaller than the index of the date
text. -/
theorem c2_field_order_counterexample :
    MarshalFrontmatter TomlDelimiter
        [(strL "title", .scal (.str (strL "x"))),
         (strL "date", .scal (.str (strL "2023-01-01")))] =
      .ok (strL "date = \"2023-01-01\"\ntitle = \"x\"\n") ∧
    ¬ ((findSub (strL "date = \"2023-01-01\"\ntitle = \"x\"\n") (strL "title")).getD 0 <
        (findSub (strL "date = \"2023-01-01\"\ntitle = \"x\"\n") (strL "date")).getD 0) := by
  constructor
  · decide
  · decide

/-- Claim C2 amended: only the yaml-style encoder emits the fixed
priority sequence title, date, draft, series, categories, tags (those
present) followed by the remaining fields in lexicographic key order;
the toml-style encoder (and likewise the json-style one) emits ALL
fields in lexicographic key order, ignoring the priority sequence. -/
theorem c2_field_order_amended :
    ∀ front : Doc,
      MarshalYaml front =
        ((yamlOrderedPairs front).map (fun kv => addYAMLField kv.1 kv.2)).flatten ∧
      MarshalToml front =
        ((sortStrs (keysOf front)).map
          (fun k => tomlFieldLine k ((lookupD front k).getD (.scal .nil)))).flatten := by
  intro front
  exact ⟨marshalYaml_eq_orderedPairs front, rfl⟩

/-! ## Line-structure lemmas -/

/-- A newline-free string, membership form. -/
theorem lineFree_iff {s : Str} : lineFree s = true ↔ '\n' ∉ s := by
  simp [lineFree]

/-- Newline-freedom distributes over append. -/
theorem lineFree_append {a b : Str} (ha : lineFree a = true) (hb : lineFree b = true) :
    lineFree (a ++ b) = true := by
  rw [lineFree_iff] at ha hb ⊢
  intro h
  rcases List.mem_append.mp h with h | h
  · exact ha h
  · exact hb h


theorem goQuoteChar_no_newline (c : Char) : '\n' ∉ goQuoteChar c := by
  unfold goQuoteChar
  by_cases h1 : c = Char.ofNat 34
  · rw [if_pos h1]; decide
  rw [if_neg h1]
  by_cases h2 : c = Char.ofNat 92
  · rw [if_pos h2]; decide
  rw [if_neg h2]
  by_cases h3 : (32 ≤ c.toNat && c.toNat ≤ 126) = true
  · rw [if_pos h3]
    intro hm
    have heq := List.mem_singleton.mp hm
    rcases Bool.and_eq_true_iff.mp h3 with ⟨hge, _⟩
    have hge2 : 32 ≤ c.toNat := of_decide_eq_true hge
    rw [← heq] at hge2
    revert hge2
    decide
  rw [if_neg h3]
  by_cases h4 : c = '\n'
  · rw [if_pos h4]; decide
  rw [if_neg h4]
  by_cases h5 : c = '\t'
  · rw [if_pos h5]; decide
  rw [if_neg h5]
  by_cases h6 : c = '\r'
  · rw [if_pos h6]; decide
  rw [if_neg h6]
  by_cases h7 : c = Char.ofNat 7
  · rw [if_pos h7]; decide
  rw [if_neg h7]
  by_cases h8 : c = Char.ofNat 8
  · rw [if_pos h8]; decide
  rw [if_neg h8]
  by_cases h9 : c = Char.ofNat 12
  · rw [if_pos h9]; decide
  rw [if_neg h9]
  by_cases h10 : c = Char.ofNat 11
  · rw [if_pos h10]; decide
  rw [if_neg h10]
  by_cases h11 : c.toNat < 128
  · rw [if_pos h11]
    intro hm
    rcases List.mem_cons.mp hm with heq | hm
    · revert heq; decide
    rcases List.mem_cons.mp hm with heq | hm
    · revert heq; decide
    have hq : c.toNat / 16 < 8 := by omega
    have hr : c.toNat % 16 < 16 := by omega
    rcases List.mem_cons.mp hm with heq | hm
    · revert heq
      generalize c.toNat / 16 = q at hq
      by_cases hlt : q < 10
      · rw [if_pos hlt]
        interval_cases q <;> decide
      · omega
    rcases List.mem_cons.mp hm with heq | hm
    · revert heq
      generalize c.toNat % 16 = r at hr
      by_cases hlt : r < 10
      · rw [if_pos hlt]
        interval_cases r <;> decide
      · rw [if_neg hlt]
        interval_cases r <;> decide
    · cases hm
  · rw [if_neg h11]
    intro hm
    have heq := List.mem_singleton.mp hm
    rw [← heq] at h11
    revert h11
    decide

theorem lineFree_goQuote (s : Str) : lineFree (goQuote s) = true := by
  rw [lineFree_iff]
  intro hm
  unfold goQuote at hm
  rcases List.mem_cons.mp hm with heq | hm
  · revert heq; decide
  rcases List.mem_append.mp hm with hm | hm
  · rcases List.mem_flatten.mp hm with ⟨l, hl, hmem⟩
    rcases List.mem_map.mp hl with ⟨c, _, rfl⟩
    exact goQuoteChar_no_newline c hmem
  · revert hm; decide


theorem toNat_ofNat_valid {n : Nat} (h : n.isValidChar) : (Char.ofNat n).toNat = n := by
  rw [Char.ofNat, dif_pos h]
  rfl

theorem natToStrGo_digits :
    ∀ (fuel n : Nat) (c : Char), c ∈ natToStrGo fuel n → 48 ≤ c.toNat ∧ c.toNat ≤ 57 := by
  intro fuel
  induction fuel with
  | zero => intro n c hc; cases hc
  | succ f ih =>
    intro n c hc
    unfold natToStrGo at hc
    by_cases h : n < 10
    · rw [if_pos h] at hc
      have heq := List.mem_singleton.mp hc
      subst heq
      have hv : (48 + n).isValidChar := by
        left
        omega
      rw [toNat_ofNat_valid hv]
      omega
    · rw [if_neg h] at hc
      rcases List.mem_append.mp hc with hm | hm
      · exact ih _ c hm
      · have heq := List.mem_singleton.mp hm
        subst heq
        have hlt : n % 10 < 10 := by omega
        have hv : (48 + n % 10).isValidChar := by
          left
          omega
        rw [toNat_ofNat_valid hv]
        omega

theorem lineFree_natToStr (n : Nat) : lineFree (natToStr n) = true := by
  rw [lineFree_iff]
  intro hm
  have := natToStrGo_digits (n + 1) n '\n' hm
  revert this
  decide

theorem lineFree_intToStr (n : Int) : lineFree (intToStr n) = true := by
  unfold intToStr
  by_cases h : n < 0
  · rw [if_pos h]
    rw [lineFree_iff]
    intro hm
    rcases List.mem_cons.mp hm with heq | hm
    · revert heq; decide
    · exact absurd hm (lineFree_iff.mp (lineFree_natToStr _))
  · rw [if_neg h]
    exact lineFree_natToStr _

theorem lineFree_boolStr (b : Bool) : lineFree (boolStr b) = true := by
  cases b <;> decide


theorem lineFree_dispS_of (x : GoScal) (hs : ∀ s, x = GoScal.str s → lineFree s = true) :
    lineFree (dispS x) = true := by
  cases x with
  | str s => exact hs s rfl
  | boolean b => exact lineFree_boolStr b
  | int n => exact lineFree_intToStr n
  | nil => decide

theorem lineFree_joinSep {sep : Str} (hsep : lineFree sep = true) :
    ∀ items : List Str, (∀ i ∈ items, lineFree i = true) → lineFree (joinSep sep items) = true := by
  intro items
  induction items with
  | nil =>
    intro _
    show lineFree ([] : Str) = true
    decide
  | cons x t ih =>
    intro hall
    cases t with
    | nil => exact hall x (List.mem_singleton.mpr rfl)
    | cons y t2 =>
      show lineFree (x ++ sep ++ joinSep sep (y :: t2)) = true
      refine lineFree_append (lineFree_append (hall x ?_) hsep) (ih ?_)
      · exact List.mem_cons_self x _
      · intro i hi
        exact hall i (List.mem_cons_of_mem x hi)

theorem lineFree_fmtYamlItem (x : GoScal) (hx : (match x with
    | GoScal.str s => needsQuotes s || lineFree s
    | _ => true) = true) : lineFree (fmtYamlItem x) = true := by
  cases x with
  | str s =>
    show lineFree (if needsQuotes s then goQuote s else s) = true
    by_cases hq : needsQuotes s = true
    · rw [if_pos hq]
      exact lineFree_goQuote s
    · rw [if_neg hq]
      simp only [hq, Bool.false_or] at hx
      exact hx
  | boolean b => exact lineFree_boolStr b
  | int n => exact lineFree_intToStr n
  | nil => decide

theorem lineFree_formatYAMLValue (v : GoVal) (hv : valLineSafe v = true)
    (hne : (match v with | GoVal.arr _ => False | GoVal.strArr _ => False | _ => True)) :
    lineFree (formatYAMLValue v) = true := by
  cases v with
  | scal x =>
    cases x with
    | str s =>
      show lineFree (if needsQuotes s then goQuote s else s) = true
      by_cases hq : needsQuotes s = true
      · rw [if_pos hq]; exact lineFree_goQuote s
      · rw [if_neg hq]
        unfold valLineSafe at hv
        simp only [hq, Bool.false_or] at hv
        exact hv
    | boolean b => exact lineFree_boolStr b
    | int n => exact lineFree_intToStr n
    | nil => decide
  | arr xs => cases hne
  | strArr ss => cases hne

theorem lineFree_yamlFieldBody (k : Str) (v : GoVal) (hk : lineFree k = true)
    (hv : valLineSafe v = true) : lineFree (yamlFieldBody k v) = true := by
  cases v with
  | scal x =>
    show lineFree (k ++ strL ": " ++ formatYAMLValue (GoVal.scal x)) = true
    exact lineFree_append (lineFree_append hk (by decide))
      (lineFree_formatYAMLValue _ hv trivial)
  | arr xs =>
    show lineFree (k ++ strL ": [" ++ joinSep (strL ", ") (formatArrayItems (GoVal.arr xs)) ++ [']']) = true
    refine lineFree_append (lineFree_append (lineFree_append hk (by decide)) ?_) (by decide)
    refine lineFree_joinSep (by decide) _ ?_
    intro i hi
    unfold formatArrayItems at hi
    rcases List.mem_map.mp hi with ⟨x, hx, rfl⟩
    unfold valLineSafe at hv
    exact lineFree_fmtYamlItem x (by
      have := List.all_eq_true.mp hv x hx
      cases x <;> simp_all)
  | strArr ss =>
    show lineFree (k ++ strL ": [" ++ joinSep (strL ", ") (formatArrayItems (GoVal.strArr ss)) ++ [']']) = true
    refine lineFree_append (lineFree_append (lineFree_append hk (by decide)) ?_) (by decide)
    refine lineFree_joinSep (by decide) _ ?_
    intro i hi
    unfold formatArrayItems at hi
    rcases List.mem_map.mp hi with ⟨x, hx, rfl⟩
    exact lineFree_goQuote x

theorem lineFree_tomlItem (x : GoScal) : lineFree (tomlItem x) = true := by
  cases x with
  | str s => exact lineFree_goQuote s
  | boolean b => exact lineFree_boolStr b
  | int n => exact lineFree_intToStr n
  | nil => decide

theorem lineFree_tomlFieldBody (k : Str) (v : GoVal) (hk : lineFree k = true) :
    lineFree (tomlFieldBody k v) = true := by
  cases v with
  | scal x =>
    cases x with
    | str s => exact lineFree_append (lineFree_append hk (by decide)) (lineFree_goQuote s)
    | boolean b => exact lineFree_append (lineFree_append hk (by decide)) (lineFree_boolStr b)
    | int n => exact lineFree_append (lineFree_append hk (by decide)) (lineFree_intToStr n)
    | nil => exact lineFree_append (lineFree_append hk (by decide)) (by decide)
  | arr xs =>
    refine lineFree_append (lineFree_append (lineFree_append hk (by decide)) ?_) (by decide)
    refine lineFree_joinSep (by decide) _ ?_
    intro i hi
    rcases List.mem_map.mp hi with ⟨x, _, rfl⟩
    exact lineFree_tomlItem x
  | strArr ss =>
    refine lineFree_append (lineFree_append (lineFree_append hk (by decide)) ?_) (by decide)
    refine lineFree_joinSep (by decide) _ ?_
    intro i hi
    rcases List.mem_map.mp hi with ⟨x, _, rfl⟩
    exact lineFree_goQuote x

theorem splitChar_append_lineFree {b : Str} (hb : lineFree b = true) (rest : Str) :
    splitChar '\n' (b ++ '\n' :: rest) = b :: splitChar '\n' rest := by
  induction b with
  | nil =>
    show splitChar '\n' ('\n' :: rest) = [] :: splitChar '\n' rest
    conv_lhs => unfold splitChar
    rw [if_pos (by decide)]
  | cons c t ih =>
    have hc : ¬ c = '\n' := by
      intro hcc
      exact (lineFree_iff.mp hb) (hcc ▸ List.mem_cons_self c t)
    have ht : lineFree t = true := by
      rw [lineFree_iff] at hb ⊢
      intro hm
      exact hb (List.mem_cons_of_mem c hm)
    show splitChar '\n' (c :: (t ++ '\n' :: rest)) = (c :: t) :: splitChar '\n' rest
    conv_lhs => unfold splitChar
    rw [if_neg (by simpa using hc), ih ht]

theorem splitChar_fieldLines :
    ∀ bodies : List Str, (∀ b ∈ bodies, lineFree b = true) →
      splitChar '\n' ((bodies.map (fun b => b ++ ['\n'])).flatten) = bodies ++ [[]] := by
  intro bodies
  induction bodies with
  | nil => intro _; rfl
  | cons b bs ih =>
    intro hall
    show splitChar '\n' ((b ++ ['\n']) ++ (bs.map (fun b => b ++ ['\n'])).flatten) =
      (b :: bs) ++ [[]]
    rw [List.append_assoc]
    show splitChar '\n' (b ++ '\n' :: (bs.map (fun b => b ++ ['\n'])).flatten) =
      (b :: bs) ++ [[]]
    rw [splitChar_append_lineFree (hall b (List.mem_cons_self b bs)),
      ih (fun x hx => hall x (List.mem_cons_of_mem b hx))]
    rfl

theorem fieldLines_filter {bodies : List Str} (hlf : ∀ b ∈ bodies, lineFree b = true)
    (hne : ∀ b ∈ bodies, b ≠ []) :
    (splitChar '\n' ((bodies.map (fun b => b ++ ['\n'])).flatten)).filter
        (fun l => l ≠ []) = bodies := by
  rw [splitChar_fieldLines bodies hlf, List.filter_append]
  have h1 : bodies.filter (fun l => decide (l ≠ [])) = bodies := by
    rw [List.filter_eq_self]
    intro b hb
    simpa using hne b hb
  have h2 : ([[]] : List Str).filter (fun l => decide (l ≠ [])) = [] := by decide
  rw [h1, h2, List.append_nil]

theorem yamlFieldBody_ne_nil (k : Str) (v : GoVal) : yamlFieldBody k v ≠ [] := by
  cases v with
  | scal x =>
    show k ++ strL ": " ++ formatYAMLValue (GoVal.scal x) ≠ []
    simp [strL]
  | arr xs => show k ++ strL ": [" ++ _ ++ [']'] ≠ []; simp
  | strArr ss => show k ++ strL ": [" ++ _ ++ [']'] ≠ []; simp

theorem tomlFieldBody_ne_nil (k : Str) (v : GoVal) : tomlFieldBody k v ≠ [] := by
  cases v with
  | scal x => cases x <;> simp [tomlFieldBody, strL, goQuote]
  | arr xs => simp [tomlFieldBody]
  | strArr ss => simp [tomlFieldBody]

theorem lookupD_some_mem {d : Doc} {k : Str} {v : GoVal} (h : lookupD d k = some v) :
    (k, v) ∈ d := by
  induction d with
  | nil => cases h
  | cons kv0 t ih =>
    obtain ⟨k0, v0⟩ := kv0
    unfold lookupD at h
    by_cases hk : k0 = k
    · rw [if_pos hk] at h
      subst hk
      cases h
      exact List.mem_cons_self _ _
    · rw [if_neg hk] at h
      exact List.mem_cons_of_mem _ (ih h)

theorem lookupD_isSome_of_mem_keys {d : Doc} {k : Str} (h : k ∈ keysOf d) :
    ∃ v, lookupD d k = some v := by
  induction d with
  | nil => cases h
  | cons kv0 t ih =>
    obtain ⟨k0, v0⟩ := kv0
    rcases List.mem_cons.mp h with heq | hm
    · subst heq
      exact ⟨v0, by unfold lookupD; rw [if_pos rfl]⟩
    · by_cases hk : k0 = k
      · subst hk
        exact ⟨v0, by unfold lookupD; rw [if_pos rfl]⟩
      · rcases ih hm with ⟨v, hv⟩
        exact ⟨v, by unfold lookupD; rw [if_neg hk]; exact hv⟩

theorem yamlOrderedPairs_mem {front : Doc} {kv : Str × GoVal}
    (h : kv ∈ yamlOrderedPairs front) : kv ∈ front := by
  unfold yamlOrderedPairs at h
  rcases List.mem_append.mp h with h | h
  · rcases List.mem_filterMap.mp h with ⟨f, _, hf⟩
    cases hlk : lookupD front f with
    | none => rw [hlk] at hf; cases hf
    | some v =>
      rw [hlk] at hf
      cases hf
      exact lookupD_some_mem hlk
  · rcases List.mem_map.mp h with ⟨k, hk, rfl⟩
    have hk2 : k ∈ keysOf (front.filter (fun kv => !(orderedFields.contains kv.1))) :=
      ((sortStrs_perm _).mem_iff).mp hk
    rw [keysOf_filter (fun s => !(orderedFields.contains s)) front] at hk2
    have hpk : (!(orderedFields.contains k)) = true := (List.mem_filter.mp hk2).2
    rcases lookupD_isSome_of_mem_keys ((List.mem_filter.mp hk2).1) with ⟨v, hv⟩
    rw [hv]
    exact lookupD_some_mem hv

theorem startsW_append_self : ∀ a b : Str, startsW (a ++ b) a = true := by
  intro a
  induction a with
  | nil => intro b; cases b <;> rfl
  | cons c t ih =>
    intro b
    show (c == c && startsW (t ++ b) t) = true
    rw [ih b]
    simp

/-! ## C3: inline sequence rendering -/

/-- Claim C3 counterexample: the claim states that every tag renders
sequence values inline on a single line; the json-style encoder is
`json.MarshalIndent` with two-space indentation, which spreads a
sequence over several lines — no single line of its output contains both
brackets of the tags array. -/
theorem c3_inline_seq_counterexample :
    MarshalFrontmatter JsonDelimiter
        [(strL "tags", .arr [.str (strL "a"), .str (strL "b")])] =
      .ok (strL "\x7b\n  \"tags\": [\n    \"a\",\n    \"b\"\n  ]\n\x7d") ∧
    ((splitChar '\n' (strL "\x7b\n  \"tags\": [\n    \"a\",\n    \"b\"\n  ]\n\x7d")).any
      (fun l => containsSub l (strL "[") && containsSub l (strL "]"))) = false := by
  constructor
  · decide
  · decide

/-- Claim C3 amended: the yaml-style and toml-style encoders render
every field — in particular every sequence-typed field — on exactly one
output line, with sequences inline between brackets (`key: [...]` and
`key = [...]` respectively), for every document whose keys and bare
string values contain no newline; the json-style encoder instead spreads
sequences over multiple lines. -/
theorem c3_inline_seq_amended :
    ∀ front : Doc, docLineSafe front = true →
      ((splitChar '\n' (MarshalYaml front)).filter (fun l => l ≠ []) =
        (yamlOrderedPairs front).map (fun kv => yamlFieldBody kv.1 kv.2)) ∧
      ((splitChar '\n' (MarshalToml front)).filter (fun l => l ≠ []) =
        (sortStrs (keysOf front)).map
          (fun k => tomlFieldBody k ((lookupD front k).getD (.scal .nil)))) ∧
      (∀ k v, (k, v) ∈ front →
        (match v with
         | GoVal.arr _ => true
         | GoVal.strArr _ => true
         | _ => false) = true →
        startsW (yamlFieldBody k v) (k ++ strL ": [") = true ∧
        (yamlFieldBody k v).getLast? = some ']' ∧
        startsW (tomlFieldBody k v) (k ++ strL " = [") = true ∧
        (tomlFieldBody k v).getLast? = some ']') := by
  intro front h
  have hdoc : ∀ kv ∈ front, lineFree kv.1 = true ∧ valLineSafe kv.2 = true := by
    intro kv hkv
    have := List.all_eq_true.mp h kv hkv
    exact ⟨(Bool.and_eq_true_iff.mp this).1, (Bool.and_eq_true_iff.mp this).2⟩
  refine ⟨?_, ?_, ?_⟩
  · rw [marshalYaml_eq_orderedPairs front]
    rw [show (fun kv : Str × GoVal => addYAMLField kv.1 kv.2) =
      (fun b => b ++ ['\n']) ∘ (fun kv : Str × GoVal => yamlFieldBody kv.1 kv.2) from rfl,
      ← List.map_map]
    refine fieldLines_filter ?_ ?_
    · intro b hb
      rcases List.mem_map.mp hb with ⟨kv, hkv, rfl⟩
      have hm := hdoc kv (yamlOrderedPairs_mem hkv)
      exact lineFree_yamlFieldBody _ _ hm.1 hm.2
    · intro b hb
      rcases List.mem_map.mp hb with ⟨kv, _, rfl⟩
      exact yamlFieldBody_ne_nil _ _
  · rw [show MarshalToml front =
      ((sortStrs (keysOf front)).map
        ((fun b => b ++ ['\n']) ∘
          (fun k => tomlFieldBody k ((lookupD front k).getD (.scal .nil))))).flatten from rfl,
      ← List.map_map]
    refine fieldLines_filter ?_ ?_
    · intro b hb
      rcases List.mem_map.mp hb with ⟨k, hk, rfl⟩
      have hk2 : k ∈ keysOf front := ((sortStrs_perm _).mem_iff).mp hk
      rcases lookupD_isSome_of_mem_keys hk2 with ⟨v, hv⟩
      have hm := hdoc (k, v) (lookupD_some_mem hv)
      exact lineFree_tomlFieldBody _ _ hm.1
    · intro b hb
      rcases List.mem_map.mp hb with ⟨k, _, rfl⟩
      exact tomlFieldBody_ne_nil _ _
  · intro k v hm hseq
    cases v with
    | scal x => simp at hseq
    | arr xs =>
      refine ⟨?_, ?_, ?_, ?_⟩
      · show startsW (k ++ strL ": [" ++
          joinSep (strL ", ") (formatArrayItems (GoVal.arr xs)) ++ [']']) (k ++ strL ": [") = true
        rw [List.append_assoc (k ++ strL ": [")]
        exact startsW_append_self _ _
      · exact List.getLast?_concat _
      · show startsW (k ++ strL " = [" ++
          joinSep (strL ", ") (xs.map tomlItem) ++ [']']) (k ++ strL " = [") = true
        rw [List.append_assoc (k ++ strL " = [")]
        exact startsW_append_self _ _
      · exact List.getLast?_concat _
    | strArr ss =>
      refine ⟨?_, ?_, ?_, ?_⟩
      · show startsW (k ++ strL ": [" ++
          joinSep (strL ", ") (formatArrayItems (GoVal.strArr ss)) ++ [']']) (k ++ strL ": [") = true
        rw [List.append_assoc (k ++ strL ": [")]
        exact startsW_append_self _ _
      · exact List.getLast?_concat _
      · show startsW (k ++ strL " = [" ++
          joinSep (strL ", ") (ss.map goQuote) ++ [']']) (k ++ strL " = [") = true
        rw [List.append_assoc (k ++ strL " = [")]
        exact startsW_append_self _ _
      · exact List.getLast?_concat _

/-- Witness for the amended claim C3 at a concrete document with a
sequence field. -/
theorem c3_inline_seq_witness :
    docLineSafe [(strL "tags", GoVal.arr [GoScal.str (strL "a")])] = true ∧
      (((splitChar '\n' (MarshalYaml [(strL "tags", GoVal.arr [GoScal.str (strL "a")])])).filter
          (fun l => l ≠ []) =
        (yamlOrderedPairs [(strL "tags", GoVal.arr [GoScal.str (strL "a")])]).map
          (fun kv => yamlFieldBody kv.1 kv.2)) ∧
      ((splitChar '\n' (MarshalToml [(strL "tags", GoVal.arr [GoScal.str (strL "a")])])).filter
          (fun l => l ≠ []) =
        (sortStrs (keysOf [(strL "tags", GoVal.arr [GoScal.str (strL "a")])])).map
          (fun k => tomlFieldBody k
            ((lookupD [(strL "tags", GoVal.arr [GoScal.str (strL "a")])] k).getD (.scal .nil)))) ∧
      (∀ k v, (k, v) ∈ [(strL "tags", GoVal.arr [GoScal.str (strL "a")])] →
        (match v with
         | GoVal.arr _ => true
         | GoVal.strArr _ => true
         | _ => false) = true →
        startsW (yamlFieldBody k v) (k ++ strL ": [") = true ∧
        (yamlFieldBody k v).getLast? = some ']' ∧
        startsW (tomlFieldBody k v) (k ++ strL " = [") = true ∧
        (tomlFieldBody k v).getLast? = some ']')) :=
  ⟨by decide, c3_inline_seq_amended [(strL "tags", GoVal.arr [GoScal.str (strL "a")])] (by decide)⟩

/-! ## C4: the YAML decode-encode round trip -/

theorem takeWhile_append_all {p : Char → Bool} :
    ∀ (a rest : Str), (∀ c ∈ a, p c = true) →
      (a ++ rest).takeWhile p = a ++ rest.takeWhile p := by
  intro a
  induction a with
  | nil => intro rest _; rfl
  | cons c t ih =>
    intro rest hall
    show (c :: (t ++ rest)).takeWhile p = c :: t ++ rest.takeWhile p
    rw [List.takeWhile_cons, if_pos (hall c (List.mem_cons_self c t)),
      ih rest (fun x hx => hall x (List.mem_cons_of_mem c hx))]
    rfl

theorem dropWhile_append_all {p : Char → Bool} :
    ∀ (a rest : Str), (∀ c ∈ a, p c = true) →
      (a ++ rest).dropWhile p = rest.dropWhile p := by
  intro a
  induction a with
  | nil => intro rest _; rfl
  | cons c t ih =>
    intro rest hall
    show (c :: (t ++ rest)).dropWhile p = rest.dropWhile p
    rw [List.dropWhile_cons, if_pos (hall c (List.mem_cons_self c t)),
      ih rest (fun x hx => hall x (List.mem_cons_of_mem c hx))]

theorem takeWhile_cons_neg {p : Char → Bool} {c : Char} (t : Str) (hc : p c = false) :
    (c :: t).takeWhile p = [] := by
  rw [List.takeWhile_cons, if_neg (by simp [hc])]

theorem dropWhile_cons_neg {p : Char → Bool} {c : Char} (t : Str) (hc : p c = false) :
    (c :: t).dropWhile p = c :: t := by
  rw [List.dropWhile_cons, if_neg (by simp [hc])]

theorem dropWhile_all_neg {p : Char → Bool} :
    ∀ s : Str, (∀ c ∈ s, p c = false) → s.dropWhile p = s := by
  intro s
  cases s with
  | nil => intro _; rfl
  | cons c t => intro hall; exact dropWhile_cons_neg t (hall c (List.mem_cons_self c t))

theorem trimSpace_noop {s : Str} (h : ∀ c ∈ s, isSpaceCh c = false) :
    trimSpace s = s := by
  unfold trimSpace
  rw [dropWhile_all_neg s h, dropWhile_all_neg s.reverse
    (fun c hc => h c (List.mem_reverse.mp hc)), List.reverse_reverse]

theorem startsW_nil : ∀ s : Str, startsW s [] = true := by
  intro s; cases s <;> rfl

theorem trimSpace_noop_ends {c : Char} {t : Str} (hc : isSpaceCh c = false)
    (hlast : ∀ e, (c :: t).getLast? = some e → isSpaceCh e = false) :
    trimSpace (c :: t) = c :: t := by
  unfold trimSpace
  rw [dropWhile_cons_neg t hc]
  cases hrevc : (c :: t).reverse with
  | nil => simp at hrevc
  | cons e r =>
    have he : (c :: t).getLast? = some e := by
      rw [← List.head?_reverse, hrevc]
      rfl
    rw [dropWhile_cons_neg r (hlast e he)]
    rw [← hrevc]
    exact List.reverse_reverse _

theorem drop_append_cons (k : Str) (c : Char) (r : Str) :
    (k ++ c :: r).drop (k.length + 1) = r := by
  induction k with
  | nil => rfl
  | cons a t ih =>
    show (t ++ c :: r).drop (t.length + 1) = r
    exact ih

theorem take_append_self (k : Str) (r : Str) : (k ++ r).take k.length = k := by
  induction k with
  | nil => rfl
  | cons a t ih =>
    show a :: (t ++ r).take t.length = a :: t
    rw [ih]

theorem findSub_colon : ∀ (k : Str), (∀ c ∈ k, c ≠ ':') →
    ∀ r : Str, findSub (k ++ ':' :: r) (strL ":") = some k.length := by
  intro k
  induction k with
  | nil =>
    intro _ r
    show findSub (':' :: r) (strL ":") = some 0
    unfold findSub
    rw [if_pos (by
      show (':' == ':' && startsW r []) = true
      rw [startsW_nil r]
      rfl)]
  | cons c t ih =>
    intro hall r
    show findSub (c :: (t ++ ':' :: r)) (strL ":") = some (t.length + 1)
    unfold findSub
    have hc : c ≠ ':' := hall c (List.mem_cons_self c t)
    rw [if_neg (by
      show ¬ ((c == ':' && startsW (t ++ ':' :: r) []) = true)
      simp [hc])]
    show Option.map (fun x => x + 1) (findSub (t ++ ':' :: r) (strL ":")) =
      some (t.length + 1)
    rw [ih (fun x hx => hall x (List.mem_cons_of_mem c hx)) r]
    rfl

theorem natToStrGo_fuel :
    ∀ (n f1 f2 : Nat), n < f1 → n < f2 → natToStrGo f1 n = natToStrGo f2 n := by
  intro n
  induction n using Nat.strong_induction_on with
  | _ n ih =>
    intro f1 f2 h1 h2
    cases f1 with
    | zero => omega
    | succ g1 =>
      cases f2 with
      | zero => omega
      | succ g2 =>
        unfold natToStrGo
        by_cases hn : n < 10
        · rw [if_pos hn, if_pos hn]
        · rw [if_neg hn, if_neg hn]
          have hd : n / 10 < n := Nat.div_lt_self (by omega) (by omega)
          rw [ih (n / 10) hd g1 g2 (by omega) (by omega)]

theorem natToStr_eq_rec {n : Nat} (h : 10 ≤ n) :
    natToStr n = natToStr (n / 10) ++ [Char.ofNat (48 + n % 10)] := by
  unfold natToStr
  conv_lhs => unfold natToStrGo
  rw [if_neg (by omega)]
  have hd : n / 10 < n := Nat.div_lt_self (by omega) (by omega)
  rw [natToStrGo_fuel (n / 10) n (n / 10 + 1) (by omega) (by omega)]

theorem natToStr_small {n : Nat} (h : n < 10) : natToStr n = [Char.ofNat (48 + n)] := by
  unfold natToStr natToStrGo
  rw [if_pos h]

theorem natToStr_ne_nil (n : Nat) : natToStr n ≠ [] := by
  by_cases h : n < 10
  · rw [natToStr_small h]; simp
  · rw [natToStr_eq_rec (by omega)]; simp

theorem natToStr_all_digits (n : Nat) : ∀ c ∈ natToStr n, 48 ≤ c.toNat ∧ c.toNat ≤ 57 :=
  fun c hc => natToStrGo_digits (n + 1) n c hc

theorem digitVal_ofNat {m : Nat} (h : m < 10) : digitVal (Char.ofNat (48 + m)) = m := by
  unfold digitVal
  rw [toNat_ofNat_valid (by left; omega)]
  omega

theorem foldl_natToStr :
    ∀ n : Nat, (natToStr n).foldl (fun a c => a * 10 + digitVal c) 0 = n := by
  have gen : ∀ n acc : Nat,
      (natToStr n).foldl (fun a c => a * 10 + digitVal c) acc =
        acc * 10 ^ (natToStr n).length + n := by
    intro n
    induction n using Nat.strong_induction_on with
    | _ n ih =>
      intro acc
      by_cases h : n < 10
      · rw [natToStr_small h]
        show acc * 10 + digitVal (Char.ofNat (48 + n)) = acc * 10 ^ 1 + n
        rw [digitVal_ofNat h]
        ring
      · rw [natToStr_eq_rec (by omega), List.foldl_append]
        have hd : n / 10 < n := Nat.div_lt_self (by omega) (by omega)
        rw [ih (n / 10) hd acc]
        simp only [List.foldl_cons, List.foldl_nil, List.length_append,
          List.length_cons, List.length_nil]
        rw [digitVal_ofNat (by omega)]
        have hp : 10 ^ ((natToStr (n / 10)).length + (0 + 1)) =
            10 ^ (natToStr (n / 10)).length * 10 := by ring
        rw [hp]
        have hn : n / 10 * 10 + n % 10 = n := by omega
        ring_nf
        omega
  intro n
  have := gen n 0
  simpa using this

theorem hexVal_digit {c : Char} (h : isDigitCh c = true) : hexVal c = some (digitVal c) := by
  unfold hexVal
  rw [if_pos h]

theorem parseBase10_digits :
    ∀ (ds : Str), ds ≠ [] → (∀ c ∈ ds, isDigitCh c = true) →
      parseBase 10 ds = some (ds.foldl (fun a c => a * 10 + digitVal c) 0) := by
  have gen : ∀ (ds : Str), (∀ c ∈ ds, isDigitCh c = true) → ∀ acc : Nat,
      ds.foldlM (fun acc c =>
        (hexVal c).bind (fun v => if v < 10 then some (acc * 10 + v) else none)) acc =
        some (ds.foldl (fun a c => a * 10 + digitVal c) acc) := by
    intro ds
    induction ds with
    | nil => intro _ acc; rfl
    | cons c t ih =>
      intro hall acc
      have hc : isDigitCh c = true := hall c (List.mem_cons_self c t)
      have hv : digitVal c < 10 := by
        unfold isDigitCh at hc
        rcases Bool.and_eq_true_iff.mp hc with ⟨h1, h2⟩
        have h1' : 48 ≤ c.toNat := of_decide_eq_true h1
        have h2' : c.toNat ≤ 57 := of_decide_eq_true h2
        unfold digitVal
        omega
      rw [List.foldlM_cons, hexVal_digit hc]
      show (if digitVal c < 10 then some (acc * 10 + digitVal c) else none).bind _ = _
      rw [if_pos hv]
      show List.foldlM _ (acc * 10 + digitVal c) t = _
      rw [ih (fun x hx => hall x (List.mem_cons_of_mem c hx)) (acc * 10 + digitVal c)]
      rfl
  intro ds hne hall
  unfold parseBase
  cases ds with
  | nil => exact absurd rfl hne
  | cons c t => exact gen (c :: t) hall 0

theorem char_ne_of_toNat_ne {c d : Char} (h : c.toNat ≠ d.toNat) : c ≠ d :=
  fun he => h (he ▸ rfl)

theorem needsQuotes_false_facts {s : Str} (h : needsQuotes s = false) :
    s ≠ [] ∧ scanfFloatOk s = false ∧ (∀ c ∈ s, specialChars.contains c = false) ∧
      startsW s (strL "-") = false ∧ startsW s (strL ":") = false ∧
      startsW s (strL "?") = false := by
  unfold needsQuotes at h
  by_cases h1 : s = []
  · rw [if_pos h1] at h; cases h
  rw [if_neg h1] at h
  by_cases h2 : [strL "true", strL "false", strL "yes", strL "no",
      strL "null", strL "~"].contains s = true
  · rw [if_pos h2] at h; cases h
  rw [if_neg h2] at h
  by_cases h3 : scanfFloatOk s = true
  · rw [if_pos h3] at h; cases h
  rw [if_neg h3] at h
  by_cases h4 : s.any (fun c => specialChars.contains c) = true
  · rw [if_pos h4] at h; cases h
  rw [if_neg h4] at h
  by_cases h5 : (startsW s (strL "-") || startsW s (strL ":") || startsW s (strL "?")) = true
  · rw [if_pos h5] at h; cases h
  refine ⟨h1, by revert h3; cases scanfFloatOk s <;> simp, ?_, ?_, ?_, ?_⟩
  · intro c hc
    rcases hb : specialChars.contains c with _ | _
    · rfl
    · exact absurd (List.any_eq_true.mpr ⟨c, hc, hb⟩) h4
  all_goals
    revert h5
    cases hd : startsW s (strL "-") <;> cases he : startsW s (strL ":") <;>
      cases hf : startsW s (strL "?") <;> simp

theorem mem_specialChars_of {c : Char} {s : Str} (hs : ∀ c2 ∈ s, specialChars.contains c2 = false)
    (hc : c ∈ s) (hmem : specialChars.contains c = true) : False := by
  rw [hs c hc] at hmem
  cases hmem

theorem safeKey_facts {k : Str} (h : safeKey k = true) :
    k ≠ [] ∧
    (∀ c ∈ k, c.toNat = 95 ∨ c.toNat = 45 ∨ (48 ≤ c.toNat ∧ c.toNat ≤ 57) ∨
      (97 ≤ c.toNat ∧ c.toNat ≤ 122) ∨ (65 ≤ c.toNat ∧ c.toNat ≤ 90)) ∧
    yamlResolve k = some (.str k) := by
  unfold safeKey at h
  rcases Bool.and_eq_true_iff.mp h with ⟨h12, h3⟩
  rcases Bool.and_eq_true_iff.mp h12 with ⟨h1, h2⟩
  refine ⟨by simpa using h1, ?_, by simpa using h3⟩
  intro c hc
  have := List.all_eq_true.mp h2 c hc
  rcases Bool.or_eq_true_iff.mp this with h' | h'
  · rcases Bool.or_eq_true_iff.mp h' with h'' | h''
    · rcases Bool.or_eq_true_iff.mp h'' with h3' | h3'
      · rcases Bool.or_eq_true_iff.mp h3' with h4' | h4'
        · unfold isDigitCh at h4'
          rcases Bool.and_eq_true_iff.mp h4' with ⟨ha, hb⟩
          exact Or.inr (Or.inr (Or.inl ⟨of_decide_eq_true ha, of_decide_eq_true hb⟩))
        · rcases Bool.and_eq_true_iff.mp h4' with ⟨ha, hb⟩
          exact Or.inr (Or.inr (Or.inr (Or.inl ⟨of_decide_eq_true ha, of_decide_eq_true hb⟩)))
      · rcases Bool.and_eq_true_iff.mp h3' with ⟨ha, hb⟩
        exact Or.inr (Or.inr (Or.inr (Or.inr ⟨of_decide_eq_true ha, of_decide_eq_true hb⟩)))
    · have : c = '_' := of_decide_eq_true h''
      exact Or.inl (by rw [this]; rfl)
  · have : c = '-' := of_decide_eq_true h'
    exact Or.inr (Or.inl (by rw [this]; rfl))

theorem words_contains_false {s : Str} (hne : s ≠ [])
    (hall : ∀ c ∈ s, isDigitCh c = true ∨ c = '-') :
    yamlTrueWords.contains s = false ∧ yamlFalseWords.contains s = false ∧
      yamlNullWords.contains s = false ∧ yamlFloatWords.contains s = false := by
  refine ⟨?_, ?_, ?_, ?_⟩
  · cases hcon : yamlTrueWords.contains s with
    | false => rfl
    | true =>
      exfalso
      have hmem : s ∈ yamlTrueWords := by simpa using hcon
      fin_cases hmem <;> first
        | exact hne rfl
        | (revert hall; decide)
  · cases hcon : yamlFalseWords.contains s with
    | false => rfl
    | true =>
      exfalso
      have hmem : s ∈ yamlFalseWords := by simpa using hcon
      fin_cases hmem <;> first
        | exact hne rfl
        | (revert hall; decide)
  · cases hcon : yamlNullWords.contains s with
    | false => rfl
    | true =>
      exfalso
      have hmem : s ∈ yamlNullWords := by simpa using hcon
      fin_cases hmem <;> first
        | exact hne rfl
        | (revert hall; decide)
  · cases hcon : yamlFloatWords.contains s with
    | false => rfl
    | true =>
      exfalso
      have hmem : s ∈ yamlFloatWords := by simpa using hcon
      fin_cases hmem <;> first
        | exact hne rfl
        | (revert hall; decide)

theorem startsW_one (c : Char) (t : Str) (a : Char) :
    startsW (c :: t) [a] = (c == a && startsW t []) := rfl

theorem startsW_one_eq (c : Char) (t : Str) (a : Char) :
    startsW (c :: t) [a] = (c == a) := by
  rw [startsW_one, startsW_nil]
  cases c == a <;> rfl

theorem natToStr_head_pos :
    ∀ m : Nat, 1 ≤ m → ∃ c t, natToStr m = c :: t ∧ 49 ≤ c.toNat ∧ c.toNat ≤ 57 := by
  intro m
  induction m using Nat.strong_induction_on with
  | _ m ih =>
    intro hm
    by_cases h : m < 10
    · refine ⟨Char.ofNat (48 + m), [], natToStr_small h, ?_, ?_⟩ <;>
        rw [toNat_ofNat_valid (by left; omega)] <;> omega
    · rcases ih (m / 10) (Nat.div_lt_self (by omega) (by omega)) (by omega) with
        ⟨c, t, heq, h1, h2⟩
      exact ⟨c, t ++ [Char.ofNat (48 + m % 10)],
        by rw [natToStr_eq_rec (by omega), heq]; rfl, h1, h2⟩

theorem natToStr_filter_underscore (m : Nat) :
    (natToStr m).filter (fun c => c ≠ '_') = natToStr m := by
  rw [List.filter_eq_self]
  intro c hc
  have := natToStr_all_digits m c hc
  simp only [ne_eq, decide_eq_true_eq]
  exact char_ne_of_toNat_ne (by show c.toNat ≠ 95; omega)

theorem natToStr_not_startsW (m : Nat) (a : Char) (ha : a.toNat < 48 ∨ 57 < a.toNat) :
    startsW (natToStr m) [a] = false := by
  cases he : natToStr m with
  | nil => rfl
  | cons c t =>
    rw [startsW_one_eq]
    have hd := natToStr_all_digits m c (by rw [he]; exact List.mem_cons_self c t)
    have : c ≠ a := char_ne_of_toNat_ne (by omega)
    simp [this]

theorem startsW_two_false {c : Char} {t : Str} {a b : Char} (h : c ≠ a) :
    startsW (c :: t) [a, b] = false := by
  show (c == a && startsW t [b]) = false
  simp [h]

theorem parseYamlInt_natToStr_body :
    ∀ m : Nat,
      (if startsW (natToStr m) (strL "0x") || startsW (natToStr m) (strL "0X") then
        parseBase 16 ((natToStr m).drop 2)
      else if startsW (natToStr m) (strL "0b") || startsW (natToStr m) (strL "0B") then
        parseBase 2 ((natToStr m).drop 2)
      else if startsW (natToStr m) (strL "0o") || startsW (natToStr m) (strL "0O") then
        parseBase 8 ((natToStr m).drop 2)
      else if natToStr m = strL "0" then some 0
      else if startsW (natToStr m) (strL "0") then parseBase 8 ((natToStr m).drop 1)
      else if natToStr m ≠ [] && (natToStr m).all isDigitCh then parseBase 10 (natToStr m)
      else none) = some m := by
  intro m
  by_cases hm : m = 0
  · subst hm
    decide
  · rcases natToStr_head_pos m (by omega) with ⟨c, t, heq, h1, h2⟩
    have hc0 : c ≠ '0' := char_ne_of_toNat_ne (by show c.toNat ≠ 48; omega)
    rw [heq]
    simp only [show (strL "0x" : Str) = ['0', 'x'] from rfl,
      show (strL "0X" : Str) = ['0', 'X'] from rfl,
      show (strL "0b" : Str) = ['0', 'b'] from rfl,
      show (strL "0B" : Str) = ['0', 'B'] from rfl,
      show (strL "0o" : Str) = ['0', 'o'] from rfl,
      show (strL "0O" : Str) = ['0', 'O'] from rfl,
      show (strL "0" : Str) = ['0'] from rfl]
    rw [startsW_two_false hc0, startsW_two_false hc0, startsW_two_false hc0,
      startsW_two_false hc0, startsW_two_false hc0, startsW_two_false hc0]
    simp only [Bool.or_self, Bool.false_or, if_false]
    have hne0 : ¬ (c :: t = ['0']) := by
      intro he
      injection he with he1 _
      exact hc0 he1
    rw [if_neg hne0, startsW_one_eq]
    have : (c == '0') = false := by simp [hc0]
    rw [this]
    simp only [Bool.false_eq_true, if_false]
    have hall : ∀ x ∈ c :: t, isDigitCh x = true := by
      intro x hx
      have := natToStr_all_digits m x (by rw [heq]; exact hx)
      unfold isDigitCh
      rw [Bool.and_eq_true_iff]
      exact ⟨decide_eq_true this.1, decide_eq_true this.2⟩
    have hd : ((c :: t ≠ []) && (c :: t).all isDigitCh) = true := by
      rw [Bool.and_eq_true_iff]
      refine ⟨by simp, List.all_eq_true.mpr hall⟩
    rw [if_pos hd, ← heq, parseBase10_digits (natToStr m) (natToStr_ne_nil m)
      (fun x hx => by
        have := natToStr_all_digits m x hx
        unfold isDigitCh
        rw [Bool.and_eq_true_iff]
        exact ⟨decide_eq_true this.1, decide_eq_true this.2⟩),
      foldl_natToStr m]

theorem intToStr_nonneg {n : Int} (h : 0 ≤ n) : intToStr n = natToStr n.toNat := by
  unfold intToStr
  rw [if_neg (by omega)]

theorem intToStr_neg {n : Int} (h : n < 0) : intToStr n = '-' :: natToStr (-n).toNat := by
  unfold intToStr
  rw [if_pos h]

theorem parseYamlInt_intToStr (n : Int) : parseYamlInt (intToStr n) = some n := by
  by_cases hn : 0 ≤ n
  · rw [intToStr_nonneg hn]
    simp only [parseYamlInt]
    rw [natToStr_filter_underscore]
    rw [show (strL "-" : Str) = ['-'] from rfl, show (strL "+" : Str) = ['+'] from rfl]
    rw [natToStr_not_startsW n.toNat '-' (by left; decide),
      natToStr_not_startsW n.toNat '+' (by left; decide)]
    simp only [Bool.or_self, Bool.false_eq_true, if_false]
    rw [parseYamlInt_natToStr_body n.toNat]
    show some ((n.toNat : Int)) = some n
    congr 1
    omega
  · rw [intToStr_neg (by omega)]
    simp only [parseYamlInt]
    rw [show ('-' :: natToStr (-n).toNat).filter (fun c => c ≠ '_') =
        '-' :: natToStr (-n).toNat from by
      rw [List.filter_cons, if_pos (by decide), natToStr_filter_underscore]]
    rw [show (strL "-" : Str) = ['-'] from rfl]
    rw [startsW_one_eq]
    rw [show ('-' == '-') = true from by decide]
    simp only [Bool.true_or, eq_self_iff_true, if_true, List.drop_succ_cons, List.drop_zero]
    rw [parseYamlInt_natToStr_body (-n).toNat]
    show some (-((-n).toNat : Int)) = some n
    congr 1
    omega

theorem intToStr_chars (n : Int) :
    ∀ c ∈ intToStr n, isDigitCh c = true ∨ c = '-' := by
  intro c hc
  by_cases hn : 0 ≤ n
  · rw [intToStr_nonneg hn] at hc
    left
    have := natToStr_all_digits n.toNat c hc
    unfold isDigitCh
    rw [Bool.and_eq_true_iff]
    exact ⟨decide_eq_true this.1, decide_eq_true this.2⟩
  · rw [intToStr_neg (by omega)] at hc
    rcases List.mem_cons.mp hc with heq | hm
    · right; exact heq
    · left
      have := natToStr_all_digits (-n).toNat c hm
      unfold isDigitCh
      rw [Bool.and_eq_true_iff]
      exact ⟨decide_eq_true this.1, decide_eq_true this.2⟩

theorem intToStr_ne_nil (n : Int) : intToStr n ≠ [] := by
  by_cases hn : 0 ≤ n
  · rw [intToStr_nonneg hn]; exact natToStr_ne_nil _
  · rw [intToStr_neg (by omega)]; simp

theorem yamlResolve_intToStr (n : Int) : yamlResolve (intToStr n) = some (.int n) := by
  have hw := words_contains_false (intToStr_ne_nil n) (intToStr_chars n)
  have hp : parseYamlInt (intToStr n) = some n := parseYamlInt_intToStr n
  unfold yamlResolve
  rw [hw.1, hw.2.1, hw.2.2.1, hw.2.2.2]
  simp only [Bool.false_eq_true, if_false]
  rw [show (strL "-" : Str) = ['-'] from rfl, show (strL "+" : Str) = ['+'] from rfl]
  by_cases hn : 0 ≤ n
  · rw [intToStr_nonneg hn] at hp ⊢
    rw [natToStr_not_startsW n.toNat '-' (by left; decide),
      natToStr_not_startsW n.toNat '+' (by left; decide)]
    simp only [Bool.or_self, Bool.false_eq_true, if_false]
    by_cases h0 : n.toNat = 0
    · have hn0 : n = 0 := by omega
      subst hn0
      decide
    · rcases natToStr_head_pos n.toNat (by omega) with ⟨c, t, heq, h1, h2⟩
      rw [heq] at hp ⊢
      show (if (isDigitCh c || c = '.') = true then
        (match parseYamlInt (c :: t) with
         | some m => some (GoScal.int m)
         | none => none) else some (GoScal.str (c :: t))) = some (GoScal.int n)
      rw [if_pos (by
        apply Bool.or_eq_true_iff.mpr
        left
        unfold isDigitCh
        rw [Bool.and_eq_true_iff]
        exact ⟨decide_eq_true (by omega), decide_eq_true (by omega)⟩), hp]
  · rw [intToStr_neg (by omega)] at hp ⊢
    rw [show startsW ('-' :: natToStr (-n).toNat) ['-'] = true from by
      rw [startsW_one_eq]; decide]
    simp only [Bool.true_or, eq_self_iff_true, if_true, List.drop_succ_cons, List.drop_zero]
    rcases natToStr_head_pos (-n).toNat (by omega) with ⟨c, t, heq, h1, h2⟩
    rw [heq] at hp ⊢
    show (if (isDigitCh c || c = '.') = true then
      (match parseYamlInt ('-' :: c :: t) with
       | some m => some (GoScal.int m)
       | none => none) else some (GoScal.str ('-' :: c :: t))) = some (GoScal.int n)
    rw [if_pos (by
      apply Bool.or_eq_true_iff.mpr
      left
      unfold isDigitCh
      rw [Bool.and_eq_true_iff]
      exact ⟨decide_eq_true (by omega), decide_eq_true (by omega)⟩), hp]

theorem goQuoteChar_printable {c : Char} (h : printableAscii c = true) :
    goQuoteChar c =
      if c = Char.ofNat 34 then [Char.ofNat 92, Char.ofNat 34]
      else if c = Char.ofNat 92 then [Char.ofNat 92, Char.ofNat 92]
      else [c] := by
  unfold goQuoteChar
  by_cases h1 : c = Char.ofNat 34
  · rw [if_pos h1, if_pos h1]
  rw [if_neg h1, if_neg h1]
  by_cases h2 : c = Char.ofNat 92
  · rw [if_pos h2, if_pos h2]
  rw [if_neg h2, if_neg h2]
  unfold printableAscii at h
  rw [if_pos h]

theorem unqAux_quote_rt :
    ∀ s : Str, (∀ c ∈ s, printableAscii c = true) → ∀ rest : Str,
      unqAux ((s.map goQuoteChar).flatten ++ Char.ofNat 34 :: rest) = some (s, rest) := by
  intro s
  induction s with
  | nil =>
    intro _ rest
    show unqAux (Char.ofNat 34 :: rest) = some ([], rest)
    unfold unqAux
    rw [if_pos rfl]
  | cons c t ih =>
    intro hall rest
    have hc : printableAscii c = true := hall c (List.mem_cons_self c t)
    have iht := ih (fun x hx => hall x (List.mem_cons_of_mem c hx)) rest
    show unqAux ((goQuoteChar c ++ (t.map goQuoteChar).flatten) ++ Char.ofNat 34 :: rest) =
      some (c :: t, rest)
    rw [goQuoteChar_printable hc]
    by_cases h1 : c = Char.ofNat 34
    · rw [if_pos h1]
      subst h1
      show (unqAux ((t.map goQuoteChar).flatten ++ Char.ofNat 34 :: rest)).map
        (fun p => (Char.ofNat 34 :: p.1, p.2)) = some (Char.ofNat 34 :: t, rest)
      rw [iht]
      rfl
    · rw [if_neg h1]
      by_cases h2 : c = Char.ofNat 92
      · rw [if_pos h2]
        subst h2
        show (unqAux ((t.map goQuoteChar).flatten ++ Char.ofNat 34 :: rest)).map
          (fun p => (Char.ofNat 92 :: p.1, p.2)) = some (Char.ofNat 92 :: t, rest)
        rw [iht]
        rfl
      · rw [if_neg h2]
        show unqAux (c :: ((t.map goQuoteChar).flatten ++ Char.ofNat 34 :: rest)) =
          some (c :: t, rest)
        unfold unqAux
        rw [if_neg h1, if_neg h2, iht]
        rfl

theorem plain_no_char {s : Str} (hs : ∀ c ∈ s, specialChars.contains c = false) {x : Char}
    (hx : specialChars.contains x = true) : ∀ c ∈ s, c ≠ x := by
  intro c hc he
  have h2 := hs c hc
  rw [he, hx] at h2
  cases h2

theorem safeStr_facts {s : Str} (h : safeStr s = true) :
    (∀ c ∈ s, printableAscii c = true) ∧
      (needsQuotes s = false → yamlResolve s = some (.str s)) := by
  unfold safeStr at h
  rcases Bool.and_eq_true_iff.mp h with ⟨h1, h2⟩
  refine ⟨fun c hc => List.all_eq_true.mp h1 c hc, ?_⟩
  intro hq
  rw [hq] at h2
  simp only [Bool.false_or] at h2
  simpa using h2

theorem intToStr_no_char {n : Int} {x : Char}
    (hx : x.toNat < 45 ∨ x.toNat = 46 ∨ x.toNat = 47 ∨ 57 < x.toNat) :
    ∀ c ∈ intToStr n, c ≠ x := by
  intro c hc he
  rcases intToStr_chars n c hc with hd | hd
  · unfold isDigitCh at hd
    rcases Bool.and_eq_true_iff.mp hd with ⟨ha, hb⟩
    have ha2 : 48 ≤ c.toNat := of_decide_eq_true ha
    have hb2 : c.toNat ≤ 57 := of_decide_eq_true hb
    rw [he] at ha2 hb2
    omega
  · rw [hd] at he
    have : x.toNat = 45 := by rw [← he]; rfl
    omega

theorem parseYamlValue_plainCons {c : Char} {t : Str}
    (h34 : ¬ c = Char.ofNat 34) (h91 : ¬ c = '[') (h39 : ¬ c = Char.ofNat 39) :
    parseYamlValue (c :: t) = Option.map (fun x => GoVal.scal x) (yamlResolve (c :: t)) := by
  show (if c = Char.ofNat 34 then
      (match unqAux t with
       | some (content, []) => some (GoVal.scal (GoScal.str content))
       | _ => none)
    else if c = '[' then
      (match flowGo (t.length + 1) t with
       | some (items, []) => some (GoVal.arr items)
       | _ => none)
    else if c = Char.ofNat 39 then none
    else Option.map (fun x => GoVal.scal x) (yamlResolve (c :: t))) =
    Option.map (fun x => GoVal.scal x) (yamlResolve (c :: t))
  rw [if_neg h34, if_neg h91, if_neg h39]

theorem parseYamlValue_scal {x : GoScal} (hx : safeScal x = true) :
    parseYamlValue (fmtYamlItem x) = some (.scal x) := by
  cases x with
  | str s =>
    have hsf := safeStr_facts (by simpa using hx)
    show parseYamlValue (if needsQuotes s then goQuote s else s) = some (.scal (.str s))
    by_cases hq : needsQuotes s = true
    · rw [if_pos hq]
      show (match unqAux ((s.map goQuoteChar).flatten ++ [Char.ofNat 34]) with
            | some (content, []) => some (GoVal.scal (GoScal.str content))
            | _ => none) = some (GoVal.scal (GoScal.str s))
      rw [show ((s.map goQuoteChar).flatten ++ [Char.ofNat 34] : Str) =
        (s.map goQuoteChar).flatten ++ Char.ofNat 34 :: [] from rfl]
      rw [unqAux_quote_rt s hsf.1 []]
    · rw [if_neg hq]
      have hq2 : needsQuotes s = false := by
        cases hnq : needsQuotes s with
        | false => rfl
        | true => exact absurd hnq hq
      have hqf := needsQuotes_false_facts hq2
      have hres := hsf.2 hq2
      cases hse : s with
      | nil => exact absurd hse hqf.1
      | cons c t =>
        subst hse
        have hmem : c ∈ c :: t := List.mem_cons_self c t
        rw [parseYamlValue_plainCons
          (plain_no_char hqf.2.2.1 (by decide) c hmem)
          (plain_no_char hqf.2.2.1 (by decide) c hmem)
          (plain_no_char hqf.2.2.1 (by decide) c hmem), hres]
        rfl
  | boolean b => cases b <;> decide
  | int n =>
    show parseYamlValue (intToStr n) = some (.scal (.int n))
    cases hse : intToStr n with
    | nil => exact absurd hse (intToStr_ne_nil n)
    | cons c t =>
      have hres := yamlResolve_intToStr n
      rw [hse] at hres
      have hmem : c ∈ intToStr n := by rw [hse]; exact List.mem_cons_self c t
      have hch : ∀ x : Char, (x.toNat < 45 ∨ x.toNat = 46 ∨ x.toNat = 47 ∨ 57 < x.toNat) →
          ¬ c = x := fun x hx0 => @intToStr_no_char n x hx0 c hmem
      rw [parseYamlValue_plainCons
        (hch (Char.ofNat 34) (by left; decide))
        (hch '[' (by right; right; right; decide))
        (hch (Char.ofNat 39) (by left; decide)), hres]
      rfl
  | nil => simp [safeScal] at hx

theorem flowGo_space (f : Nat) (X : Str) : flowGo (f + 1) (' ' :: X) = flowGo (f + 1) X := rfl

theorem flowGo_nil_item (f : Nat) (tail : Str) : flowGo (f + 1) (']' :: tail) = some ([], tail) :=
  rfl

theorem flowGo_quote (f : Nat) (X : Str) :
    flowGo (f + 1) (Char.ofNat 34 :: X) =
      match (unqAux X).map (fun p => (GoScal.str p.1, p.2)) with
      | none => none
      | some (v, r1) =>
        match r1.dropWhile (fun ch => ch == ' ') with
        | c2 :: r2 =>
          if c2 = ']' then some ([v], r2)
          else if c2 = ',' then (flowGo f r2).map (fun p => (v :: p.1, p.2))
          else none
        | [] => none := rfl

theorem flowGo_plain (f : Nat) (c : Char) (rest : Str)
    (hsp : (c == ' ') = false) (hbr : ¬ c = ']') (hq : ¬ c = Char.ofNat 34) :
    flowGo (f + 1) (c :: rest) =
      match (if trimSpace ((c :: rest).takeWhile (fun ch => ch ≠ ',' && ch ≠ ']')) = [] then
               none
             else
               (yamlResolve
                   (trimSpace ((c :: rest).takeWhile (fun ch => ch ≠ ',' && ch ≠ ']')))).map
                 (fun v => (v, (c :: rest).dropWhile (fun ch => ch ≠ ',' && ch ≠ ']')))) with
      | none => none
      | some (v, r1) =>
        match r1.dropWhile (fun ch => ch == ' ') with
        | c2 :: r2 =>
          if c2 = ']' then some ([v], r2)
          else if c2 = ',' then (flowGo f r2).map (fun p => (v :: p.1, p.2))
          else none
        | [] => none := by
  have h1 : (c :: rest).dropWhile (fun ch => ch == ' ') = c :: rest :=
    dropWhile_cons_neg rest hsp
  conv_lhs => unfold flowGo
  rw [h1]
  show (if c = ']' then some ([], rest)
    else
      match (if c = Char.ofNat 34 then
               (unqAux rest).map (fun p => (GoScal.str p.1, p.2))
             else
               if trimSpace ((c :: rest).takeWhile (fun ch => ch ≠ ',' && ch ≠ ']')) = [] then
                 none
               else
                 (yamlResolve
                     (trimSpace ((c :: rest).takeWhile (fun ch => ch ≠ ',' && ch ≠ ']')))).map
                   (fun v => (v, (c :: rest).dropWhile (fun ch => ch ≠ ',' && ch ≠ ']')))) with
      | none => none
      | some (v, r1) =>
        match r1.dropWhile (fun ch => ch == ' ') with
        | c2 :: r2 =>
          if c2 = ']' then some ([v], r2)
          else if c2 = ',' then (flowGo f r2).map (fun p => (v :: p.1, p.2))
          else none
        | [] => none) = _
  rw [if_neg hbr, if_neg hq]

theorem flowGo_after (f : Nat) (v : GoScal) (d : Char) (hd : d = ',' ∨ d = ']') (tail : Str) :
    (match (d :: tail).dropWhile (fun ch => ch == ' ') with
     | c2 :: r2 =>
       if c2 = ']' then some ([v], r2)
       else if c2 = ',' then (flowGo f r2).map (fun p => (v :: p.1, p.2))
       else none
     | [] => none) =
    if d = ']' then some ([v], tail)
    else (flowGo f tail).map (fun p => (v :: p.1, p.2)) := by
  rcases hd with hd | hd <;> subst hd <;> rfl

theorem beqCh_false {c d : Char} (h : ¬ c = d) : (c == d) = false := by
  cases hb : c == d with
  | false => rfl
  | true => exact absurd (eq_of_beq hb) h

theorem printable_ge32 {c : Char} (h : printableAscii c = true) : 32 ≤ c.toNat := by
  unfold printableAscii at h
  exact of_decide_eq_true (Bool.and_eq_true_iff.mp h).1

theorem isSpaceCh_false_of_ne {c : Char} (hne : ¬ c = ' ') (h32 : 32 ≤ c.toNat) :
    isSpaceCh c = false := by
  have h9 : ¬ c = '\t' :=
    char_ne_of_toNat_ne (by have hx : Char.toNat '\t' = 9 := rfl; omega)
  have h10 : ¬ c = '\n' :=
    char_ne_of_toNat_ne (by have hx : Char.toNat '\n' = 10 := rfl; omega)
  have h13 : ¬ c = '\r' :=
    char_ne_of_toNat_ne (by have hx : Char.toNat '\r' = 13 := rfl; omega)
  have h11 : ¬ c = Char.ofNat 11 :=
    char_ne_of_toNat_ne (by have hx : Char.toNat (Char.ofNat 11) = 11 := rfl; omega)
  have h12 : ¬ c = Char.ofNat 12 :=
    char_ne_of_toNat_ne (by have hx : Char.toNat (Char.ofNat 12) = 12 := rfl; omega)
  unfold isSpaceCh
  rw [beqCh_false hne, beqCh_false h9, beqCh_false h10, beqCh_false h13,
    beqCh_false h11, beqCh_false h12]
  rfl

theorem flowGo_plain_item (f : Nat) (s : Str) (x : GoScal) (hne : s ≠ [])
    (hcomma : ∀ c ∈ s, ¬ c = ',') (hbrk : ∀ c ∈ s, ¬ c = ']')
    (hsp0 : ∀ c ∈ s, isSpaceCh c = false)
    (hq0 : ∀ c ∈ s, ¬ c = Char.ofNat 34)
    (hres : yamlResolve s = some x)
    (d : Char) (hd : d = ',' ∨ d = ']') (tail : Str) :
    flowGo (f + 1) (s ++ d :: tail) =
      if d = ']' then some ([x], tail)
      else (flowGo f tail).map (fun p => (x :: p.1, p.2)) := by
  cases s with
  | nil => exact absurd rfl hne
  | cons c t =>
    have hmem : c ∈ c :: t := List.mem_cons_self c t
    have hsp : (c == ' ') = false := by
      have h1 := hsp0 c hmem
      cases hb : c == ' ' with
      | false => rfl
      | true =>
        exfalso
        unfold isSpaceCh at h1
        rw [hb] at h1
        cases h1
    have hallP : ∀ ch ∈ c :: t, (fun ch => ch ≠ ',' && ch ≠ ']') ch = true := by
      intro ch hch
      simp [hcomma ch hch, hbrk ch hch]
    have hdP : (fun ch => ch ≠ ',' && ch ≠ ']') d = false := by
      rcases hd with hd2 | hd2 <;> subst hd2 <;> decide
    rw [show ((c :: t) ++ d :: tail : Str) = c :: (t ++ d :: tail) from rfl]
    rw [flowGo_plain f c (t ++ d :: tail) hsp (hbrk c hmem) (hq0 c hmem)]
    rw [show ((c : Char) :: (t ++ d :: tail)) = (c :: t) ++ d :: tail from rfl]
    rw [takeWhile_append_all (c :: t) (d :: tail) hallP,
      takeWhile_cons_neg tail hdP, List.append_nil,
      dropWhile_append_all (c :: t) (d :: tail) hallP,
      dropWhile_cons_neg tail hdP,
      trimSpace_noop hsp0]
    rw [if_neg (by simp : ¬ ((c :: t : Str) = [])), hres]
    exact flowGo_after f x d hd tail

theorem flowGo_item (f : Nat) (x : GoScal) (hx : safeScal x = true) (d : Char)
    (hd : d = ',' ∨ d = ']') (tail : Str) :
    flowGo (f + 1) (fmtYamlItem x ++ d :: tail) =
      if d = ']' then some ([x], tail)
      else (flowGo f tail).map (fun p => (x :: p.1, p.2)) := by
  cases x with
  | str s =>
    have hsf := safeStr_facts (by simpa using hx)
    show flowGo (f + 1) ((if needsQuotes s then goQuote s else s) ++ d :: tail) = _
    by_cases hq : needsQuotes s = true
    · rw [if_pos hq]
      rw [show (goQuote s ++ d :: tail : Str) =
          Char.ofNat 34 :: ((s.map goQuoteChar).flatten ++ Char.ofNat 34 :: d :: tail) from by
        unfold goQuote
        simp [List.append_assoc]]
      rw [flowGo_quote, unqAux_quote_rt s hsf.1 (d :: tail)]
      exact flowGo_after f (GoScal.str s) d hd tail
    · rw [if_neg hq]
      have hq2 : needsQuotes s = false := by
        cases hnq : needsQuotes s with
        | false => rfl
        | true => exact absurd hnq hq
      have hqf := needsQuotes_false_facts hq2
      exact flowGo_plain_item f s (GoScal.str s) hqf.1
        (@plain_no_char s hqf.2.2.1 ',' (by decide))
        (@plain_no_char s hqf.2.2.1 ']' (by decide))
        (fun c hc => isSpaceCh_false_of_ne
          (@plain_no_char s hqf.2.2.1 ' ' (by decide) c hc)
          (printable_ge32 (hsf.1 c hc)))
        (@plain_no_char s hqf.2.2.1 (Char.ofNat 34) (by decide))
        (hsf.2 hq2) d hd tail
  | boolean b =>
    cases b with
    | false =>
      exact flowGo_plain_item f (strL "false") (GoScal.boolean false) (by decide)
        (by decide) (by decide) (by decide) (by decide) (by decide) d hd tail
    | true =>
      exact flowGo_plain_item f (strL "true") (GoScal.boolean true) (by decide)
        (by decide) (by decide) (by decide) (by decide) (by decide) d hd tail
  | int n =>
    exact flowGo_plain_item f (intToStr n) (GoScal.int n) (intToStr_ne_nil n)
      (@intToStr_no_char n ',' (by left; decide))
      (@intToStr_no_char n ']' (by right; right; right; decide))
      (fun c hc => by
        rcases intToStr_chars n c hc with hd2 | hd2
        · unfold isDigitCh at hd2
          rcases Bool.and_eq_true_iff.mp hd2 with ⟨ha, hb⟩
          have ha2 : 48 ≤ c.toNat := of_decide_eq_true ha
          exact isSpaceCh_false_of_ne
            (char_ne_of_toNat_ne (by have hx2 : Char.toNat ' ' = 32 := rfl; omega))
            (by omega)
        · rw [hd2]; decide)
      (@intToStr_no_char n (Char.ofNat 34) (by left; decide))
      (yamlResolve_intToStr n) d hd tail
  | nil => simp [safeScal] at hx

theorem flowGo_rt :
    ∀ (xs : List GoScal) (f : Nat), xs.length ≤ f →
      (∀ x ∈ xs, safeScal x = true) → ∀ tail : Str,
      flowGo (f + 1) (joinSep (strL ", ") (xs.map fmtYamlItem) ++ ']' :: tail) =
        some (xs, tail) := by
  intro xs
  induction xs with
  | nil => intro f _ _ tail; exact flowGo_nil_item f tail
  | cons x rest ih =>
    intro f hlen hall tail
    cases rest with
    | nil =>
      show flowGo (f + 1) (fmtYamlItem x ++ ']' :: tail) = some ([x], tail)
      rw [flowGo_item f x (hall x (List.mem_cons_self x [])) ']' (Or.inr rfl) tail]
      rw [if_pos rfl]
    | cons y t =>
      show flowGo (f + 1)
        ((fmtYamlItem x ++ strL ", " ++ joinSep (strL ", ") ((y :: t).map fmtYamlItem)) ++
          ']' :: tail) = some (x :: y :: t, tail)
      rw [show ((fmtYamlItem x ++ strL ", " ++ joinSep (strL ", ") ((y :: t).map fmtYamlItem)) ++
          ']' :: tail : Str) =
          fmtYamlItem x ++
            ',' :: (' ' :: (joinSep (strL ", ") ((y :: t).map fmtYamlItem) ++ ']' :: tail)) from by
        simp [List.append_assoc]
        rfl]
      rw [flowGo_item f x (hall x (List.mem_cons_self x (y :: t))) ',' (Or.inl rfl)
        (' ' :: (joinSep (strL ", ") ((y :: t).map fmtYamlItem) ++ ']' :: tail))]
      rw [if_neg (by decide : ¬ (',' : Char) = ']')]
      cases f with
      | zero => simp at hlen
      | succ g =>
        rw [flowGo_space g (joinSep (strL ", ") ((y :: t).map fmtYamlItem) ++ ']' :: tail)]
        rw [ih (g) (by simpa using Nat.lt_succ_iff.mp (by simpa using hlen))
          (fun z hz => hall z (List.mem_cons_of_mem x hz)) tail]
        rfl

theorem bareStr_nospace {s : Str} (hq2 : needsQuotes s = false)
    (hpr : ∀ c ∈ s, printableAscii c = true) : ∀ c ∈ s, isSpaceCh c = false :=
  fun c hc => isSpaceCh_false_of_ne
    (@plain_no_char s (needsQuotes_false_facts hq2).2.2.1 ' ' (by decide) c hc)
    (printable_ge32 (hpr c hc))

theorem intToStr_nospace (n : Int) : ∀ c ∈ intToStr n, isSpaceCh c = false := by
  intro c hc
  rcases intToStr_chars n c hc with hd2 | hd2
  · unfold isDigitCh at hd2
    rcases Bool.and_eq_true_iff.mp hd2 with ⟨ha, hb⟩
    have ha2 : 48 ≤ c.toNat := of_decide_eq_true ha
    exact isSpaceCh_false_of_ne
      (char_ne_of_toNat_ne (by have hx2 : Char.toNat ' ' = 32 := rfl; omega))
      (by omega)
  · rw [hd2]; decide

theorem formatYAMLValue_scal (x : GoScal) :
    formatYAMLValue (GoVal.scal x) = fmtYamlItem x := by cases x <;> rfl

theorem yamlFieldBody_scal (k : Str) (x : GoScal) :
    yamlFieldBody k (GoVal.scal x) = k ++ ':' :: ' ' :: fmtYamlItem x := by
  show k ++ strL ": " ++ formatYAMLValue (GoVal.scal x) = _
  rw [formatYAMLValue_scal]
  simp only [List.append_assoc]
  rfl

theorem yamlFieldBody_arr (k : Str) (xs : List GoScal) :
    yamlFieldBody k (GoVal.arr xs) =
      k ++ ':' :: ' ' :: '[' :: (joinSep (strL ", ") (xs.map fmtYamlItem) ++ [']']) := by
  show k ++ strL ": [" ++ joinSep (strL ", ") (formatArrayItems (GoVal.arr xs)) ++ [']'] = _
  rw [show formatArrayItems (GoVal.arr xs) = xs.map fmtYamlItem from rfl]
  simp only [List.append_assoc]
  rfl

theorem fmtYamlItem_trim {x : GoScal} (hx : safeScal x = true) :
    trimSpace (fmtYamlItem x) = fmtYamlItem x := by
  cases x with
  | str s =>
    have hsf := safeStr_facts (by simpa using hx)
    show trimSpace (if needsQuotes s then goQuote s else s) =
      (if needsQuotes s then goQuote s else s)
    by_cases hq : needsQuotes s = true
    · rw [if_pos hq]
      have hlast : ∀ e,
          ((Char.ofNat 34 :: ((s.map goQuoteChar).flatten ++ [Char.ofNat 34])) : Str).getLast? =
            some e → isSpaceCh e = false := by
        intro e he
        have h2 : ((Char.ofNat 34 :: (s.map goQuoteChar).flatten) ++ [Char.ofNat 34] :
            Str).getLast? = some (Char.ofNat 34) := List.getLast?_concat _
        rw [show ((Char.ofNat 34 :: (s.map goQuoteChar).flatten) ++ [Char.ofNat 34] : Str) =
            Char.ofNat 34 :: ((s.map goQuoteChar).flatten ++ [Char.ofNat 34]) from by
          simp] at h2
        rw [h2] at he
        cases he
        decide
      exact trimSpace_noop_ends (by decide) hlast
    · rw [if_neg hq]
      have hq2 : needsQuotes s = false := by
        cases hnq : needsQuotes s with
        | false => rfl
        | true => exact absurd hnq hq
      exact trimSpace_noop (bareStr_nospace hq2 hsf.1)
  | boolean b => cases b <;> decide
  | int n => exact trimSpace_noop (intToStr_nospace n)
  | nil => simp [safeScal] at hx

theorem parseYamlValue_arr (rest : Str) :
    parseYamlValue ('[' :: rest) =
      match flowGo (rest.length + 1) rest with
      | some (items, []) => some (GoVal.arr items)
      | _ => none := rfl

theorem joinSep_items_len (xs : List GoScal) :
    xs.length ≤ (joinSep (strL ", ") (xs.map fmtYamlItem)).length + 1 := by
  induction xs with
  | nil => exact Nat.zero_le 1
  | cons x rest ih =>
    cases rest with
    | nil => show 1 ≤ (fmtYamlItem x).length + 1; omega
    | cons y t =>
      show (y :: t).length + 1 ≤
        (fmtYamlItem x ++ strL ", " ++ joinSep (strL ", ") ((y :: t).map fmtYamlItem)).length + 1
      rw [List.length_append, List.length_append]
      have h2 : (strL ", " : Str).length = 2 := rfl
      have h3 := ih
      omega

theorem decodeYamlLine_keyval (k : Str) (hcol : ∀ c ∈ k, c ≠ ':') (hne : k ≠ [])
    (hsp : ∀ c ∈ k, isSpaceCh c = false) (hres : yamlResolve k = some (.str k))
    (body : Str) :
    decodeYamlLine (k ++ ':' :: ' ' :: body) =
      (parseYamlValue (trimSpace body)).map (fun v => (k, v)) := by
  conv_lhs => unfold decodeYamlLine
  rw [findSub_colon k hcol (' ' :: body)]
  show (if trimSpace ((k ++ ':' :: ' ' :: body).take k.length) = [] then none
    else if yamlResolve (trimSpace ((k ++ ':' :: ' ' :: body).take k.length)) ≠
        some (GoScal.str (trimSpace ((k ++ ':' :: ' ' :: body).take k.length))) then none
    else
      match (k ++ ':' :: ' ' :: body).drop (k.length + 1) with
      | [] => some (trimSpace ((k ++ ':' :: ' ' :: body).take k.length), GoVal.scal GoScal.nil)
      | c :: _ =>
        if c = ' ' then
          (parseYamlValue (trimSpace ((k ++ ':' :: ' ' :: body).drop (k.length + 1)))).map
            (fun v => (trimSpace ((k ++ ':' :: ' ' :: body).take k.length), v))
        else none) = _
  rw [take_append_self k (':' :: ' ' :: body), drop_append_cons k ':' (' ' :: body),
    trimSpace_noop hsp]
  rw [if_neg hne, if_neg (show ¬ yamlResolve k ≠ some (GoScal.str k) from fun hc => hc hres)]
  rfl

theorem decodeLine_roundtrip {k : Str} (hk : safeKey k = true) {v : GoVal}
    (hv : safeVal v = true) :
    decodeYamlLine (yamlFieldBody k v) = some (k, v) := by
  have hkf := safeKey_facts hk
  have hcol : ∀ c ∈ k, c ≠ ':' := fun c hc =>
    char_ne_of_toNat_ne (by
      have h58 : Char.toNat ':' = 58 := rfl
      rcases hkf.2.1 c hc with h | h | h | h | h <;> omega)
  have hksp : ∀ c ∈ k, isSpaceCh c = false := by
    intro c hc
    have h32 : Char.toNat ' ' = 32 := rfl
    rcases hkf.2.1 c hc with h | h | h | h | h <;>
      exact isSpaceCh_false_of_ne (char_ne_of_toNat_ne (by omega)) (by omega)
  cases v with
  | scal x =>
    rw [yamlFieldBody_scal, decodeYamlLine_keyval k hcol hkf.1 hksp hkf.2.2]
    rw [fmtYamlItem_trim (by simpa using hv), parseYamlValue_scal (by simpa using hv)]
    rfl
  | arr xs =>
    rw [yamlFieldBody_arr, decodeYamlLine_keyval k hcol hkf.1 hksp hkf.2.2]
    have htr : trimSpace ('[' :: (joinSep (strL ", ") (xs.map fmtYamlItem) ++ [']'])) =
        '[' :: (joinSep (strL ", ") (xs.map fmtYamlItem) ++ [']']) := by
      apply trimSpace_noop_ends (by decide)
      intro e he
      have h2 : (('[' :: joinSep (strL ", ") (xs.map fmtYamlItem)) ++ [']'] : Str).getLast? =
          some ']' := List.getLast?_concat _
      rw [show (('[' :: joinSep (strL ", ") (xs.map fmtYamlItem)) ++ [']'] : Str) =
          '[' :: (joinSep (strL ", ") (xs.map fmtYamlItem) ++ [']']) from by simp] at h2
      rw [h2] at he
      cases he
      decide
    rw [htr, parseYamlValue_arr]
    have hall : ∀ x ∈ xs, safeScal x = true := by
      intro x hx
      exact List.all_eq_true.mp hv x hx
    have hlen : xs.length ≤ (joinSep (strL ", ") (xs.map fmtYamlItem) ++ ']' :: []).length := by
      rw [List.length_append]
      have h3 := joinSep_items_len xs
      have h1 : ((']' :: [] : Str)).length = 1 := rfl
      omega
    rw [show (joinSep (strL ", ") (xs.map fmtYamlItem) ++ [']'] : Str) =
        joinSep (strL ", ") (xs.map fmtYamlItem) ++ ']' :: [] from rfl]
    rw [flowGo_rt xs (joinSep (strL ", ") (xs.map fmtYamlItem) ++ ']' :: []).length hlen hall []]
    rfl
  | strArr ss => simp [safeVal] at hv

theorem lineFree_of_printable {s : Str} (h : ∀ c ∈ s, printableAscii c = true) :
    lineFree s = true := by
  rw [lineFree_iff]
  intro hm
  exact absurd (h '\n' hm) (by decide)

theorem safeKey_printable {k : Str} (hk : safeKey k = true) :
    ∀ c ∈ k, printableAscii c = true := by
  intro c hc
  have hkf := safeKey_facts hk
  unfold printableAscii
  rw [Bool.and_eq_true_iff]
  rcases hkf.2.1 c hc with h | h | h | h | h <;>
    exact ⟨decide_eq_true (by omega), decide_eq_true (by omega)⟩

theorem safeKey_lineFree {k : Str} (hk : safeKey k = true) : lineFree k = true :=
  lineFree_of_printable (safeKey_printable hk)

theorem safeVal_lineSafe {v : GoVal} (hv : safeVal v = true) : valLineSafe v = true := by
  cases v with
  | scal x =>
    cases x with
    | str s =>
      have hsf := safeStr_facts (by simpa using hv)
      show (needsQuotes s || lineFree s) = true
      rw [lineFree_of_printable hsf.1]
      cases needsQuotes s <;> rfl
    | boolean b => rfl
    | int n => rfl
    | nil => rfl
  | arr xs =>
    show xs.all _ = true
    rw [List.all_eq_true]
    intro x hx
    have hxs : safeScal x = true := List.all_eq_true.mp hv x hx
    cases x with
    | str s =>
      have hsf := safeStr_facts (by simpa using hxs)
      show (needsQuotes s || lineFree s) = true
      rw [lineFree_of_printable hsf.1]
      cases needsQuotes s <;> rfl
    | boolean b => rfl
    | int n => rfl
    | nil => rfl
  | strArr ss => simp [safeVal] at hv

theorem lookupD_eq_none_of_not_mem {d : Doc} {k : Str} (h : ¬ k ∈ keysOf d) :
    lookupD d k = none := by
  cases hl : lookupD d k with
  | none => rfl
  | some v => exact absurd (List.mem_map.mpr ⟨(k, v), lookupD_some_mem hl, rfl⟩) h

theorem upsert_append {d : Doc} {k : Str} (v : GoVal) (h : ¬ k ∈ keysOf d) :
    upsert d k v = d ++ [(k, v)] := by
  unfold upsert
  rw [lookupD_eq_none_of_not_mem h]
  rfl

theorem foldl_upsert_nodup :
    ∀ (ps : List (Str × GoVal)) (acc : Doc), (keysOf acc ++ keysOf ps).Nodup →
      ps.foldl (fun d kv => upsert d kv.1 kv.2) acc = acc ++ ps := by
  intro ps
  induction ps with
  | nil =>
    intro acc _
    show acc = acc ++ []
    rw [List.append_nil]
  | cons kv rest ih =>
    intro acc hnd
    obtain ⟨k, v⟩ := kv
    have hnd' : (keysOf acc ++ k :: keysOf rest).Nodup := hnd
    rcases List.nodup_append.mp hnd' with ⟨h1, h2, h3⟩
    have hk_not : ¬ k ∈ keysOf acc := fun hm => h3 hm (List.mem_cons_self _ _)
    have hnodup2 : (keysOf (acc ++ [(k, v)]) ++ keysOf rest).Nodup := by
      show ((acc ++ [(k, v)]).map Prod.fst ++ keysOf rest).Nodup
      rw [List.map_append, List.append_assoc]
      exact hnd'
    show rest.foldl (fun d kv => upsert d kv.1 kv.2) (upsert acc k v) = acc ++ (k, v) :: rest
    rw [upsert_append v hk_not, ih (acc ++ [(k, v)]) hnodup2, List.append_assoc]
    rfl

theorem mapM_decodeLine :
    ∀ ps : List (Str × GoVal), (∀ kv ∈ ps, safeKey kv.1 = true ∧ safeVal kv.2 = true) →
      (ps.map (fun kv => yamlFieldBody kv.1 kv.2)).mapM decodeYamlLine = some ps := by
  intro ps
  induction ps with
  | nil => intro _; rfl
  | cons kv rest ih =>
    intro hall
    obtain ⟨k, v⟩ := kv
    have hkv := hall (k, v) (List.mem_cons_self _ _)
    show (yamlFieldBody k v :: rest.map (fun kv => yamlFieldBody kv.1 kv.2)).mapM decodeYamlLine
      = some ((k, v) :: rest)
    rw [List.mapM_cons, decodeLine_roundtrip hkv.1 hkv.2,
      ih (fun x hx => hall x (List.mem_cons_of_mem _ hx))]
    rfl

theorem nodup_keysOf {d : Doc} (h : nodupKeys d = true) : (keysOf d).Nodup := by
  induction d with
  | nil => exact List.nodup_nil
  | cons kv t ih =>
    obtain ⟨k, v⟩ := kv
    rcases Bool.and_eq_true_iff.mp h with ⟨h1, h2⟩
    show (k :: keysOf t).Nodup
    rw [List.nodup_cons]
    refine ⟨?_, ih h2⟩
    intro hm
    have hc : (keysOf t).contains k = true := by simpa using hm
    rw [hc] at h1
    cases h1

theorem keysOf_filterMap_lookup (front : Doc) :
    ∀ fs : List Str,
      keysOf (fs.filterMap (fun f => (lookupD front f).map (fun v => (f, v)))) =
        fs.filter (fun f => (lookupD front f).isSome) := by
  intro fs
  induction fs with
  | nil => rfl
  | cons f fs' ih =>
    cases hlf : lookupD front f with
    | none =>
      rw [List.filterMap_cons_none (by simp [hlf]), ih, List.filter_cons,
        if_neg (by simp [hlf])]
    | some v =>
      have hstep :
          List.filterMap (fun g => Option.map (fun v => (g, v)) (lookupD front g)) (f :: fs') =
            (f, v) ::
              List.filterMap (fun g => Option.map (fun v => (g, v)) (lookupD front g)) fs' :=
        List.filterMap_cons_some (by simp [hlf])
      rw [hstep]
      show f :: keysOf (fs'.filterMap (fun f => (lookupD front f).map (fun v => (f, v)))) =
        (f :: fs').filter (fun f => (lookupD front f).isSome)
      rw [ih, List.filter_cons, if_pos (by simp [hlf])]

theorem keysOf_map_pair (g : Str → GoVal) :
    ∀ S : List Str, keysOf (S.map (fun k => (k, g k))) = S := by
  intro S
  induction S with
  | nil => rfl
  | cons a t ih =>
    show a :: keysOf (t.map (fun k => (k, g k))) = a :: t
    rw [ih]

theorem keysOf_append (a b : Doc) : keysOf (a ++ b) = keysOf a ++ keysOf b :=
  List.map_append _ _ _

theorem yamlOrderedPairs_keys_nodup {d : Doc} (h : nodupKeys d = true) :
    (keysOf (yamlOrderedPairs d)).Nodup := by
  unfold yamlOrderedPairs
  rw [keysOf_append, keysOf_filterMap_lookup d orderedFields, keysOf_map_pair]
  refine List.nodup_append.mpr ⟨?_, ?_, ?_⟩
  · exact List.Nodup.filter _ (by decide)
  · rw [(sortStrs_perm _).nodup_iff]
    rw [keysOf_filter (fun s => !(orderedFields.contains s)) d]
    exact List.Nodup.filter _ (nodup_keysOf h)
  · intro x hx1 hx2
    have hxo : x ∈ orderedFields := List.mem_of_mem_filter hx1
    have hx2' := ((sortStrs_perm _).mem_iff).mp hx2
    rw [keysOf_filter (fun s => !(orderedFields.contains s)) d] at hx2'
    have hpk2 : (!orderedFields.contains x) = true := (List.mem_filter.mp hx2').2
    have hcx : orderedFields.contains x = true := by simpa using hxo
    rw [hcx] at hpk2
    cases hpk2

theorem decodeYaml_marshal {d : Doc} (h : SafeDoc d = true) :
    decodeYaml (MarshalYaml d) = some (yamlOrderedPairs d) := by
  have hnd : nodupKeys d = true := (Bool.and_eq_true_iff.mp h).1
  have hsafe : ∀ kv ∈ yamlOrderedPairs d, safeKey kv.1 = true ∧ safeVal kv.2 = true := by
    intro kv hkv
    have hm := yamlOrderedPairs_mem hkv
    exact Bool.and_eq_true_iff.mp (List.all_eq_true.mp (Bool.and_eq_true_iff.mp h).2 kv hm)
  have hM : MarshalYaml d =
      (((yamlOrderedPairs d).map (fun kv => yamlFieldBody kv.1 kv.2)).map
        (fun b => b ++ ['\n'])).flatten := by
    rw [marshalYaml_eq_orderedPairs, List.map_map]
    rfl
  rw [hM]
  unfold decodeYaml
  rw [fieldLines_filter
    (by
      intro b hb
      rcases List.mem_map.mp hb with ⟨kv, hkv, rfl⟩
      exact lineFree_yamlFieldBody kv.1 kv.2 (safeKey_lineFree (hsafe kv hkv).1)
        (safeVal_lineSafe (hsafe kv hkv).2))
    (by
      intro b hb
      rcases List.mem_map.mp hb with ⟨kv, _, rfl⟩
      exact yamlFieldBody_ne_nil kv.1 kv.2)]
  rw [mapM_decodeLine (yamlOrderedPairs d) hsafe]
  show some ((yamlOrderedPairs d).foldl (fun d kv => upsert d kv.1 kv.2) []) = _
  rw [foldl_upsert_nodup (yamlOrderedPairs d) []
    (by
      show (([] : Doc).map Prod.fst ++ keysOf (yamlOrderedPairs d)).Nodup
      exact yamlOrderedPairs_keys_nodup hnd)]
  rfl

theorem strLe_trans : ∀ a b c : Str, strLe a b = true → strLe b c = true →
    strLe a c = true := by
  intro a
  induction a with
  | nil => intro b c _ _; rfl
  | cons x s ih =>
    intro b c h1 h2
    cases b with
    | nil => simp [strLe] at h1
    | cons y t =>
      cases c with
      | nil => simp [strLe] at h2
      | cons z u =>
        rw [show strLe (x :: s) (z :: u) =
          (if x.toNat < z.toNat then true
           else if z.toNat < x.toNat then false else strLe s u) from rfl]
        rw [show strLe (x :: s) (y :: t) =
          (if x.toNat < y.toNat then true
           else if y.toNat < x.toNat then false else strLe s t) from rfl] at h1
        rw [show strLe (y :: t) (z :: u) =
          (if y.toNat < z.toNat then true
           else if z.toNat < y.toNat then false else strLe t u) from rfl] at h2
        by_cases hxy : x.toNat < y.toNat
        · by_cases hyz : y.toNat < z.toNat
          · rw [if_pos (by omega)]
          · by_cases hzy : z.toNat < y.toNat
            · rw [if_neg hyz, if_pos hzy] at h2
              cases h2
            · rw [if_pos (by omega)]
        · by_cases hyx : y.toNat < x.toNat
          · rw [if_neg hxy, if_pos hyx] at h1
            cases h1
          · rw [if_neg hxy, if_neg hyx] at h1
            by_cases hyz : y.toNat < z.toNat
            · rw [if_pos (by omega)]
            · by_cases hzy : z.toNat < y.toNat
              · rw [if_neg hyz, if_pos hzy] at h2
                cases h2
              · rw [if_neg hyz, if_neg hzy] at h2
                rw [if_neg (by omega), if_neg (by omega)]
                exact ih t u h1 h2

theorem strLe_total : ∀ a b : Str, strLe a b = true ∨ strLe b a = true := by
  intro a
  induction a with
  | nil => intro b; left; rfl
  | cons x s ih =>
    intro b
    cases b with
    | nil => right; rfl
    | cons y t =>
      rw [show strLe (x :: s) (y :: t) =
        (if x.toNat < y.toNat then true
         else if y.toNat < x.toNat then false else strLe s t) from rfl]
      rw [show strLe (y :: t) (x :: s) =
        (if y.toNat < x.toNat then true
         else if x.toNat < y.toNat then false else strLe t s) from rfl]
      by_cases hxy : x.toNat < y.toNat
      · left; rw [if_pos hxy]
      · by_cases hyx : y.toNat < x.toNat
        · right; rw [if_pos hyx]
        · rcases ih t with h | h
          · left
            rw [if_neg hxy, if_neg hyx]
            exact h
          · right
            rw [if_neg hyx, if_neg hxy]
            exact h

theorem insertStr_sorted {l : List Str} (hs : l.Pairwise (fun a b => strLe a b = true))
    (x : Str) : (insertStr x l).Pairwise (fun a b => strLe a b = true) := by
  induction l with
  | nil => exact List.pairwise_singleton _ _
  | cons y t ih =>
    rcases List.pairwise_cons.mp hs with ⟨hy, ht⟩
    show (if strLe x y then x :: y :: t else y :: insertStr x t).Pairwise _
    by_cases hxy : strLe x y = true
    · rw [if_pos hxy]
      refine List.pairwise_cons.mpr ⟨?_, hs⟩
      intro b hb
      rcases List.mem_cons.mp hb with rfl | hb2
      · exact hxy
      · exact strLe_trans x y b hxy (hy b hb2)
    · rw [if_neg hxy]
      refine List.pairwise_cons.mpr ⟨?_, ih ht⟩
      intro b hb
      have hmem := (insertStr_perm x t).mem_iff.mp hb
      rcases List.mem_cons.mp hmem with rfl | hb2
      · rcases strLe_total y b with h | h
        · exact h
        · exact absurd h hxy
      · exact hy b hb2

theorem sortStrs_sorted : ∀ l : List Str,
    (sortStrs l).Pairwise (fun a b => strLe a b = true) := by
  intro l
  induction l with
  | nil => exact List.Pairwise.nil
  | cons x t ih => exact insertStr_sorted ih x

theorem sortStrs_of_sorted : ∀ l : List Str,
    l.Pairwise (fun a b => strLe a b = true) → sortStrs l = l := by
  intro l
  induction l with
  | nil => intro _; rfl
  | cons x t ih =>
    intro hs
    rcases List.pairwise_cons.mp hs with ⟨hx, ht⟩
    show insertStr x (sortStrs t) = x :: t
    rw [ih ht]
    cases t with
    | nil => rfl
    | cons y u =>
      show (if strLe x y then x :: y :: u else y :: insertStr x u) = x :: y :: u
      rw [if_pos (hx y (List.mem_cons_self y u))]

theorem sortStrs_idem (l : List Str) : sortStrs (sortStrs l) = sortStrs l :=
  sortStrs_of_sorted _ (sortStrs_sorted l)

theorem lookupD_append (a b : Doc) (k : Str) :
    lookupD (a ++ b) k = (lookupD a k).or (lookupD b k) := by
  induction a with
  | nil => rfl
  | cons kv t ih =>
    obtain ⟨k0, v0⟩ := kv
    show (if k0 = k then some v0 else lookupD (t ++ b) k) =
      ((if k0 = k then some v0 else lookupD t k).or (lookupD b k))
    by_cases hk : k0 = k
    · rw [if_pos hk, if_pos hk]
      rfl
    · rw [if_neg hk, if_neg hk]
      exact ih

theorem lookupD_filterMap_none (d : Doc) (f : Str) (hld : lookupD d f = none) :
    ∀ fs : List Str,
      lookupD (fs.filterMap (fun g => (lookupD d g).map (fun v => (g, v)))) f = none := by
  intro fs
  induction fs with
  | nil => rfl
  | cons g fs' ih =>
    cases hlg : lookupD d g with
    | none =>
      rw [List.filterMap_cons_none (by simp [hlg])]
      exact ih
    | some v =>
      have hstep :
          List.filterMap (fun g => Option.map (fun v => (g, v)) (lookupD d g)) (g :: fs') =
            (g, v) ::
              List.filterMap (fun g => Option.map (fun v => (g, v)) (lookupD d g)) fs' :=
        List.filterMap_cons_some (by simp [hlg])
      rw [hstep]
      show (if g = f then some v
        else lookupD (fs'.filterMap (fun g => (lookupD d g).map (fun v => (g, v)))) f) = none
      rw [if_neg (fun he => by rw [he] at hlg; rw [hlg] at hld; cases hld)]
      exact ih

theorem lookupD_filterMap_mem (d : Doc) (f : Str) :
    ∀ fs : List Str, f ∈ fs →
      lookupD (fs.filterMap (fun g => (lookupD d g).map (fun v => (g, v)))) f =
        lookupD d f := by
  intro fs
  induction fs with
  | nil => intro h; cases h
  | cons g fs' ih =>
    intro hmem
    by_cases hgf : g = f
    · subst hgf
      cases hld : lookupD d g with
      | none =>
        rw [List.filterMap_cons_none (by simp [hld])]
        exact lookupD_filterMap_none d g hld fs'
      | some v =>
        have hstep :
            List.filterMap (fun j => Option.map (fun v => (j, v)) (lookupD d j)) (g :: fs') =
              (g, v) ::
                List.filterMap (fun j => Option.map (fun v => (j, v)) (lookupD d j)) fs' :=
          List.filterMap_cons_some (by simp [hld])
        rw [hstep]
        show (if g = g then some v
          else lookupD (fs'.filterMap (fun j => (lookupD d j).map (fun v => (j, v)))) g) =
          some v
        rw [if_pos rfl]
    · rcases List.mem_cons.mp hmem with he | hmem2
      · exact absurd he.symm hgf
      cases hlg : lookupD d g with
      | none =>
        rw [List.filterMap_cons_none (by simp [hlg])]
        exact ih hmem2
      | some v =>
        have hstep :
            List.filterMap (fun j => Option.map (fun v => (j, v)) (lookupD d j)) (g :: fs') =
              (g, v) ::
                List.filterMap (fun j => Option.map (fun v => (j, v)) (lookupD d j)) fs' :=
          List.filterMap_cons_some (by simp [hlg])
        rw [hstep]
        show (if g = f then some v
          else lookupD (fs'.filterMap (fun j => (lookupD d j).map (fun v => (j, v)))) f) =
          lookupD d f
        rw [if_neg hgf]
        exact ih hmem2

theorem lookupD_map_pair_not_mem (g : Str → GoVal) (f : Str) :
    ∀ S : List Str, ¬ f ∈ S → lookupD (S.map (fun k => (k, g k))) f = none := by
  intro S
  induction S with
  | nil => intro _; rfl
  | cons a t ih =>
    intro hnm
    show (if a = f then some (g a) else lookupD (t.map (fun k => (k, g k))) f) = none
    rw [if_neg (fun he => hnm (by rw [← he]; exact List.mem_cons_self a t))]
    exact ih (fun hm => hnm (List.mem_cons_of_mem a hm))

theorem lookupD_map_pair_mem (g : Str → GoVal) (f : Str) :
    ∀ S : List Str, f ∈ S → lookupD (S.map (fun k => (k, g k))) f = some (g f) := by
  intro S
  induction S with
  | nil => intro h; cases h
  | cons a t ih =>
    intro hmem
    show (if a = f then some (g a) else lookupD (t.map (fun k => (k, g k))) f) = some (g f)
    by_cases haf : a = f
    · rw [if_pos haf, haf]
    · rw [if_neg haf]
      rcases List.mem_cons.mp hmem with he | h2
      · exact absurd he.symm haf
      · exact ih h2

theorem mem_filterMap_lookup_key (d : Doc) (fs : List Str) {kv : Str × GoVal}
    (h : kv ∈ fs.filterMap (fun g => (lookupD d g).map (fun v => (g, v)))) : kv.1 ∈ fs := by
  rcases List.mem_filterMap.mp h with ⟨g, hg, hmap⟩
  cases hlg : lookupD d g with
  | none =>
    rw [hlg] at hmap
    cases hmap
  | some v =>
    rw [hlg] at hmap
    have h2 : (g, v) = kv := by
      have h3 : some (g, v) = some kv := hmap
      injection h3
    rw [← h2]
    exact hg

theorem yamlOrderedPairs_canon (d P : Doc)
    (hPdef : P = orderedFields.filterMap (fun f => (lookupD d f).map (fun v => (f, v))) ++
      (sortStrs (keysOf (d.filter (fun kv => !(orderedFields.contains kv.1))))).map
        (fun k => (k, (lookupD d k).getD (.scal .nil)))) :
    yamlOrderedPairs P = P := by
  have hSmem : ∀ k ∈ sortStrs (keysOf (d.filter (fun kv => !(orderedFields.contains kv.1)))),
      (!(orderedFields.contains k)) = true := by
    intro k hk
    have hk2 := ((sortStrs_perm _).mem_iff).mp hk
    rw [keysOf_filter (fun s => !(orderedFields.contains s)) d] at hk2
    exact (List.mem_filter.mp hk2).2
  have hlookP : ∀ f ∈ orderedFields, lookupD P f = lookupD d f := by
    intro f hf
    rw [hPdef, lookupD_append]
    cases hld : lookupD d f with
    | some v =>
      rw [lookupD_filterMap_mem d f orderedFields hf, hld]
      rfl
    | none =>
      rw [lookupD_filterMap_none d f hld orderedFields]
      rw [lookupD_map_pair_not_mem (fun j => (lookupD d j).getD (.scal .nil)) f
        (sortStrs (keysOf (d.filter (fun kv => !(orderedFields.contains kv.1)))))
        (fun hm => by
          have h1 := hSmem f hm
          rw [show orderedFields.contains f = true from by simpa using hf] at h1
          cases h1)]
      rfl
  have hA : orderedFields.filterMap (fun f => (lookupD P f).map (fun v => (f, v))) =
      orderedFields.filterMap (fun f => (lookupD d f).map (fun v => (f, v))) :=
    List.filterMap_congr (fun f hf => by rw [hlookP f hf])
  have hAfil : (orderedFields.filterMap
        (fun f => (lookupD d f).map (fun v => (f, v)))).filter
      (fun kv => !(orderedFields.contains kv.1)) = [] := by
    rw [List.filter_eq_nil_iff]
    intro kv hkv
    have h1 : kv.1 ∈ orderedFields := mem_filterMap_lookup_key d orderedFields hkv
    simpa using h1
  have hBfil : ((sortStrs (keysOf (d.filter (fun kv => !(orderedFields.contains kv.1))))).map
        (fun k => (k, (lookupD d k).getD (.scal .nil)))).filter
      (fun kv => !(orderedFields.contains kv.1)) =
      (sortStrs (keysOf (d.filter (fun kv => !(orderedFields.contains kv.1))))).map
        (fun k => (k, (lookupD d k).getD (.scal .nil))) := by
    rw [List.filter_eq_self]
    intro kv hkv
    rcases List.mem_map.mp hkv with ⟨k, hkS, rfl⟩
    simpa using hSmem k hkS
  have hkeys : keysOf (P.filter (fun kv => !(orderedFields.contains kv.1))) =
      sortStrs (keysOf (d.filter (fun kv => !(orderedFields.contains kv.1)))) := by
    rw [hPdef, List.filter_append, hAfil, hBfil, List.nil_append, keysOf_map_pair]
  have hB : (sortStrs (keysOf (P.filter (fun kv => !(orderedFields.contains kv.1))))).map
      (fun k => (k, (lookupD P k).getD (.scal .nil))) =
      (sortStrs (keysOf (d.filter (fun kv => !(orderedFields.contains kv.1))))).map
        (fun k => (k, (lookupD d k).getD (.scal .nil))) := by
    rw [hkeys, sortStrs_idem]
    refine List.map_congr_left ?_
    intro k hk
    have hAnone : lookupD (orderedFields.filterMap
        (fun f => (lookupD d f).map (fun v => (f, v)))) k = none :=
      lookupD_eq_none_of_not_mem (fun hm => by
        rcases List.mem_map.mp hm with ⟨kv, hkv, he⟩
        have h1 : kv.1 ∈ orderedFields := mem_filterMap_lookup_key d orderedFields hkv
        rw [he] at h1
        have h2 : orderedFields.contains k = true := by simpa using h1
        have h3 := hSmem k hk
        rw [h2] at h3
        cases h3)
    have hlk : lookupD P k = some ((lookupD d k).getD (.scal .nil)) := by
      rw [hPdef, lookupD_append, hAnone,
        lookupD_map_pair_mem (fun j => (lookupD d j).getD (.scal .nil)) k
          (sortStrs (keysOf (d.filter (fun kv => !(orderedFields.contains kv.1))))) hk]
      rfl
    rw [hlk]
    rfl
  conv_lhs => unfold yamlOrderedPairs
  rw [hA, hB, ← hPdef]

theorem yamlOrderedPairs_idem (d : Doc) :
    yamlOrderedPairs (yamlOrderedPairs d) = yamlOrderedPairs d :=
  yamlOrderedPairs_canon d (yamlOrderedPairs d) rfl

/-- Claim C4 counterexample: the claim states the decode-encode round trip
is idempotent for every well-formed metadata bytes; the bytes
`key: null\n` are well formed (they decode successfully, to a document
with a nil value), but the first encode prints the nil value bare as
`<nil>`, the second decode reads that back as the string `<nil>`, and
the second encode then quotes it, so the twice-round-tripped bytes
differ from the once-round-tripped bytes. -/
theorem c4_roundtrip_counterexample :
    (decodeYaml (strL "key: null\n")).isSome = true ∧
    ((decodeYaml (strL "key: null\n")).bind (fun d1 =>
        (MarshalFrontmatter YamlDelimiter d1).toOption.bind (fun s1 =>
          (decodeYaml s1).bind (fun d2 =>
            (MarshalFrontmatter YamlDelimiter d2).toOption)))) ≠
      (decodeYaml (strL "key: null\n")).bind (fun d1 =>
        (MarshalFrontmatter YamlDelimiter d1).toOption) :=
  ⟨by decide, by decide⟩

/-- Claim C4 amended: for yaml-style metadata bytes B that decode to a
document with unique keys, bare alphanumeric keys, and values that
survive the round trip (no nil or `[]string` values, string values that
are printable ASCII and either get quoted or re-resolve to themselves),
the decode-encode round trip is idempotent:
encode(decode(encode(decode(B)))) equals encode(decode(B)). -/
theorem c4_roundtrip_amended (B : Str) (d1 : Doc) (hdec : decodeYaml B = some d1)
    (hsafe : SafeDoc d1 = true) :
    ((decodeYaml B).bind (fun x =>
        (MarshalFrontmatter YamlDelimiter x).toOption.bind (fun s1 =>
          (decodeYaml s1).bind (fun d2 =>
            (MarshalFrontmatter YamlDelimiter d2).toOption)))) =
      (decodeYaml B).bind (fun x => (MarshalFrontmatter YamlDelimiter x).toOption) := by
  rw [hdec]
  show (decodeYaml (MarshalYaml d1)).bind
    (fun d2 => (MarshalFrontmatter YamlDelimiter d2).toOption) = some (MarshalYaml d1)
  rw [decodeYaml_marshal hsafe]
  show some (MarshalYaml (yamlOrderedPairs d1)) = some (MarshalYaml d1)
  rw [marshalYaml_eq_orderedPairs (yamlOrderedPairs d1), yamlOrderedPairs_idem d1,
    ← marshalYaml_eq_orderedPairs d1]

/-- Witness instantiating the amended C4 round trip on the concrete
bytes `title: hello\n`, whose decoded document is safe. -/
theorem c4_roundtrip_witness :
    decodeYaml (strL "title: hello\n") =
      some [(strL "title", GoVal.scal (GoScal.str (strL "hello")))] ∧
    SafeDoc [(strL "title", GoVal.scal (GoScal.str (strL "hello")))] = true ∧
    ((decodeYaml (strL "title: hello\n")).bind (fun x =>
        (MarshalFrontmatter YamlDelimiter x).toOption.bind (fun s1 =>
          (decodeYaml s1).bind (fun d2 =>
            (MarshalFrontmatter YamlDelimiter d2).toOption)))) =
      (decodeYaml (strL "title: hello\n")).bind (fun x =>
        (MarshalFrontmatter YamlDelimiter x).toOption) :=
  ⟨by decide, by decide,
    c4_roundtrip_amended (strL "title: hello\n")
      [(strL "title", GoVal.scal (GoScal.str (strL "hello")))] (by decide) (by decide)⟩
